import Mathlib

/-!
# BrandFactory — verification of the configuration-merge, batch, sanitizer,
  recovery, provenance and scoring components

Shallow embedding of the Python sources under `src/`:

* `src/localization_agent.py` — `LocalizationAgent.merge_configs`,
  `validate_locked_parameters`, `_deep_equal`;
* `src/batch_processor.py` — `BatchProcessor.create_jobs`,
  `process_batch_sequential`, `BatchJob`, `BatchResult`, `JobStatus`;
* `src/schema_sanitizer.py` — `SchemaSanitizer._sanitize_value`,
  `_sanitize_focal_length`, `sanitize`;
* `src/error_recovery.py` — `StateManager.save_state`, `load_state`;
* `src/c2pa_manager.py` — `C2PAManager.calculate_json_fingerprint`;
* `src/output_manager.py` — `OutputManager.calculate_consistency_score`.

Python JSON-like data is modelled by the inductive `Json` below; Python
dicts are association lists in insertion order with unique keys (the
operations below preserve the first-match/replace-in-place semantics of
CPython dicts).  Machine floats are modelled by real arithmetic, Python
exceptions by `Option`/`Except`, and `datetime.now()` by an explicit
counter passed through the state.
-/

namespace BrandFactory

/-- JSON-like Python values (dicts keep insertion order, as in CPython). -/
inductive Json where
  | null : Json
  | bool : Bool → Json
  | num  : Int → Json
  | str  : String → Json
  | arr  : List Json → Json
  | obj  : List (String × Json) → Json

/-- `d.get(k)` / `d[k]` on a Python dict: the binding for `k`, if any. -/
def jlookup (kvs : List (String × Json)) (k : String) : Option Json :=
  match kvs with
  | [] => none
  | (k', v) :: rest => if k' = k then some v else jlookup rest k

/-- `d.get(k, default)` on a Python dict. -/
def jget (kvs : List (String × Json)) (k : String) (default : Json) : Json :=
  (jlookup kvs k).getD default

/-- `d[k] = v` on a Python dict: replace in place if the key is present,
append otherwise. -/
def jset (kvs : List (String × Json)) (k : String) (v : Json) :
    List (String × Json) :=
  match kvs with
  | [] => [(k, v)]
  | (k', v') :: rest =>
    if k' = k then (k', v) :: rest else (k', v') :: jset rest k v

/-- `base.update(overrides)` on Python dicts (one level). -/
def jupdate (base overrides : List (String × Json)) : List (String × Json) :=
  overrides.foldl (fun acc kv => jset acc kv.1 kv.2) base

/-- Python truthiness of a JSON-like value (`if x:`). -/
def jtruthy : Json → Bool
  | .null => false
  | .bool b => b
  | .num n => n ≠ 0
  | .str s => s ≠ ""
  | .arr l => !l.isEmpty
  | .obj l => !l.isEmpty

/-- Keys of a Python dict, in insertion order. -/
def jkeys (kvs : List (String × Json)) : List String := kvs.map Prod.fst

/-! ## `LocalizationAgent.merge_configs` (src/localization_agent.py 36–98)

The body of the `for key, value in environment_overrides.items()` loop
(lines 76–86): on an existing key whose current value and override value
are both dicts, a one-level in-place `update`; otherwise direct
replacement; a fresh key is appended. -/

/-- One iteration of the override loop of `merge_configs`
(src/localization_agent.py lines 76–86). -/
def applyOverride (vp : List (String × Json)) (k : String) (v : Json) :
    List (String × Json) :=
  match jlookup vp k with
  | some old =>
    match v, old with
    | .obj o, .obj m => jset vp k (.obj (jupdate m o))
    | _, _ => jset vp k v
  | none => jset vp k v

/-- The whole override loop of `merge_configs`
(src/localization_agent.py lines 76–86). -/
def applyOverrides (vp : List (String × Json))
    (overrides : List (String × Json)) : List (String × Json) :=
  overrides.foldl (fun acc kv => applyOverride acc kv.1 kv.2) vp

/-- `region_json["negative_prompts"] = negative_prompts` guarded by
`if negative_prompts:` (src/localization_agent.py lines 122–124). -/
def addNegativePrompts (r : List (String × Json)) (np : Json) :
    List (String × Json) :=
  if jtruthy np then jset r "negative_prompts" np else r

/-- `region_json["metadata"][key] = elems` guarded by `if elems:`
(src/localization_agent.py lines 128–130 and 134–136); `none` where the
Python raises (no dict `"metadata"` entry to index into). -/
def addMetadataFlag (r : List (String × Json)) (key : String) (elems : Json) :
    Option (List (String × Json)) :=
  if jtruthy elems then
    match jlookup r "metadata" with
    | some (.obj md) => some (jset r "metadata" (.obj (jset md key elems)))
    | _ => none
  else some r

/-- `LocalizationAgent._apply_brand_guardrails`
(src/localization_agent.py lines 100–140).  Returns `none` where the
Python raises (a non-dict `brand_guardrails` value has no `.get`). -/
def apply_brand_guardrails (region_json : List (String × Json))
    (campaign_config : List (String × Json)) :
    Option (List (String × Json)) :=
  match jget campaign_config "brand_guardrails" (.obj []) with
  | .obj guardrails =>
    match addMetadataFlag
        (addNegativePrompts region_json (jget guardrails "negative_prompts" (.arr [])))
        "forbidden_elements" (jget guardrails "forbidden_elements" (.arr [])) with
    | none => none
    | some r2 =>
        addMetadataFlag r2 "required_elements"
          (jget guardrails "required_elements" (.arr []))
  | _ => none

/-- Lines 61–64 of src/localization_agent.py: stamp region metadata
(`region_id`, `region_name`, `locale`, `localized_at`) into the
metadata dict; `.get` of an absent region field yields Python `None`. -/
def stampMetadata (now : String) (region_config md : List (String × Json)) :
    List (String × Json) :=
  jset (jset (jset (jset md
    "region_id" (jget region_config "region_id" .null))
    "region_name" (jget region_config "display_name" .null))
    "locale" (jget region_config "locale" .null))
    "localized_at" (.str now)

/-- Lines 72–86 of src/localization_agent.py: fetch
`result.get("variable_parameters", {})` and run the override loop on it.
When the key exists the loop mutates the dict inside `result`; when it is
absent the loop mutates the fresh `{}` default, which is never written
back; a non-dict value raises on the first iteration (string indexing). -/
def applyVariableOverrides (result : List (String × Json))
    (environment_overrides : List (String × Json)) :
    Option (List (String × Json)) :=
  match jlookup result "variable_parameters" with
  | some (.obj vp) =>
      some (jset result "variable_parameters"
        (.obj (applyOverrides vp environment_overrides)))
  | some _ =>
      if environment_overrides.isEmpty then some result else none
  | none => some result

/-- Line 95 of src/localization_agent.py:
`result["metadata"]["cultural_context"] = region_config.get("cultural_context", {})`;
`none` where the Python raises (no dict `"metadata"` entry). -/
def setCulturalContext (region_config result : List (String × Json)) :
    Option (List (String × Json)) :=
  match jlookup result "metadata" with
  | some (.obj md) =>
      some (jset result "metadata"
        (.obj (jset md "cultural_context"
          (jget region_config "cultural_context" (.obj [])))))
  | _ => none

/-- `LocalizationAgent.merge_configs` (src/localization_agent.py 36–98).

`now` stands for `datetime.now().isoformat()`.  Returns `none` exactly
where the Python raises: a master without a dict `"metadata"` entry
(`result["metadata"]["region_id"] = ...` raises), a non-dict
`"environment_overrides"` (`.items()` raises), a non-dict
`"variable_parameters"` hit by a nonempty override loop (indexing it with
a string key raises), or a non-dict `"brand_guardrails"`. -/
def merge_configs (now : String) (master_json : List (String × Json))
    (region_config : List (String × Json))
    (campaign_config : Option (List (String × Json))) :
    Option (List (String × Json)) :=
  -- result = copy.deepcopy(master_json): deep copy is the identity on trees
  match jlookup master_json "metadata" with
  | some (.obj md) =>
    match jget region_config "environment_overrides" (.obj []) with
    | .obj environment_overrides =>
      match applyVariableOverrides
          (jset master_json "metadata" (.obj (stampMetadata now region_config md)))
          environment_overrides with
      | none => none
      | some r2 =>
        match (match campaign_config with
          | some cc => apply_brand_guardrails r2 cc
          | none => some r2) with
        | none => none
        | some r3 => setCulturalContext region_config r3
    | _ => none
  | _ => none

/-! ## `LocalizationAgent._deep_equal` / `validate_locked_parameters`
(src/localization_agent.py 197–244) -/

mutual

/-- `LocalizationAgent._deep_equal` (src/localization_agent.py 220–244):
type check first, dicts compared by key set then per key, lists by length
then pointwise (`zip`), leaves by `==`. -/
def deep_equal : Json → Json → Bool
  | .null, .null => true
  | .bool a, .bool b => a == b
  | .num a, .num b => a == b
  | .str a, .str b => a == b
  | .arr xs, .arr ys =>
      xs.length == ys.length && deep_equal_zip xs ys
  | .obj xs, .obj ys =>
      decide ((jkeys xs).toFinset = (jkeys ys).toFinset) &&
      deep_equal_keys xs ys
  | _, _ => false

/-- `all(self._deep_equal(a, b) for a, b in zip(obj1, obj2))`
(src/localization_agent.py line 242; `zip` truncates to the shorter list). -/
def deep_equal_zip : List Json → List Json → Bool
  | [], _ => true
  | _ :: _, [] => true
  | x :: xs, y :: ys => deep_equal x y && deep_equal_zip xs ys

/-- `all(self._deep_equal(obj1[k], obj2[k]) for k in obj1.keys())`
(src/localization_agent.py line 237; a key of `obj1` missing from `obj2`
would raise, but the key-set check has already ruled that out). -/
def deep_equal_keys : List (String × Json) → List (String × Json) → Bool
  | [], _ => true
  | (k, v) :: rest, ys =>
      (match jlookup ys k with
       | some w => deep_equal v w
       | none => false) && deep_equal_keys rest ys

end

/-- `LocalizationAgent.validate_locked_parameters`
(src/localization_agent.py 197–218). -/
def validate_locked_parameters (master_json region_json : List (String × Json)) :
    Bool :=
  deep_equal (jget master_json "locked_parameters" (.obj []))
    (jget region_json "locked_parameters" (.obj []))

/-! ## Well-formed JSON values (what Python dicts guarantee: unique keys) -/

mutual

/-- A JSON value every object of which has pairwise-distinct keys.  Data
built from Python dicts always satisfies this. -/
def jwf : Json → Bool
  | .null => true
  | .bool _ => true
  | .num _ => true
  | .str _ => true
  | .arr xs => jwfList xs
  | .obj xs => decide (jkeys xs).Nodup && jwfObj xs

/-- `jwf` on every element of a list. -/
def jwfList : List Json → Bool
  | [] => true
  | x :: xs => jwf x && jwfList xs

/-- `jwf` on every value of an association list. -/
def jwfObj : List (String × Json) → Bool
  | [] => true
  | (_, v) :: rest => jwf v && jwfObj rest

end

/-! ## Dictionary lemmas -/

theorem jlookup_jset_self (l : List (String × Json)) (k : String) (v : Json) :
    jlookup (jset l k v) k = some v := by
  induction l with
  | nil => simp [jset, jlookup]
  | cons hd tl ih =>
    obtain ⟨k', v'⟩ := hd
    by_cases h : k' = k <;> simp [jset, jlookup, h, ih]

theorem jlookup_jset_ne (l : List (String × Json)) (k : String) (v : Json)
    (k' : String) (h : k' ≠ k) :
    jlookup (jset l k v) k' = jlookup l k' := by
  induction l with
  | nil => simp [jset, jlookup, Ne.symm h]
  | cons hd tl ih =>
    obtain ⟨k1, v1⟩ := hd
    by_cases h1 : k1 = k
    · subst h1
      simp [jset, jlookup, Ne.symm h]
    · simp [jset, jlookup, h1, ih]

theorem jlookup_of_nodup_mem {xs : List (String × Json)} {k : String} {v : Json}
    (hn : (jkeys xs).Nodup) (hm : (k, v) ∈ xs) : jlookup xs k = some v := by
  induction xs with
  | nil => cases hm
  | cons hd tl ih =>
    obtain ⟨k1, v1⟩ := hd
    rcases List.mem_cons.mp hm with h | h
    · cases h
      simp [jlookup]
    · have hk : k ∈ jkeys tl := List.mem_map.mpr ⟨_, h, rfl⟩
      have hcons : (k1 :: jkeys tl).Nodup := by simpa [jkeys] using hn
      have h1 : k1 ≠ k := by
        rintro rfl
        exact (List.nodup_cons.mp hcons).1 hk
      simpa [jlookup, h1] using ih (List.nodup_cons.mp hcons).2 h

theorem jlookup_jupdate (m : List (String × Json)) (o : List (String × Json))
    (hn : (jkeys o).Nodup) (k : String) :
    jlookup (jupdate m o) k =
      if k ∈ jkeys o then jlookup o k else jlookup m k := by
  induction o generalizing m with
  | nil => simp [jupdate, jkeys]
  | cons hd tl ih =>
    obtain ⟨k1, v1⟩ := hd
    have hcons : (k1 :: jkeys tl).Nodup := by simpa [jkeys] using hn
    have h1 : (jkeys tl).Nodup := (List.nodup_cons.mp hcons).2
    have h2 : k1 ∉ jkeys tl := (List.nodup_cons.mp hcons).1
    show jlookup (jupdate (jset m k1 v1) tl) k = _
    rw [ih _ h1]
    simp only [jkeys, List.map_cons, List.mem_cons]
    by_cases hk : k ∈ jkeys tl
    · have hne : ¬ (k1 = k) := fun h => h2 (h ▸ hk)
      rw [if_pos (by simpa [jkeys] using hk),
        if_pos (Or.inr (by simpa [jkeys] using hk))]
      simp [jlookup, hne]
    · by_cases he : k = k1
      · subst he
        rw [if_neg (by simpa [jkeys] using hk), if_pos (Or.inl rfl),
          jlookup_jset_self]
        simp [jlookup]
      · rw [if_neg (by simpa [jkeys] using hk),
          if_neg (by simp [he]; simpa [jkeys] using hk),
          jlookup_jset_ne _ _ _ _ he]

/-! ## Reflexivity of `_deep_equal` on well-formed values -/

mutual

theorem deep_equal_refl (x : Json) (h : jwf x = true) : deep_equal x x = true := by
  match x with
  | .null => rfl
  | .bool b => simp [deep_equal]
  | .num n => simp [deep_equal]
  | .str s => simp [deep_equal]
  | .arr xs =>
    simp only [deep_equal, Bool.and_eq_true, beq_self_eq_true, true_and]
    exact deep_equal_zip_refl xs (by simpa [jwf] using h)
  | .obj xs =>
    have h' := h
    simp only [jwf, Bool.and_eq_true, decide_eq_true_eq] at h'
    have hkeys := deep_equal_keys_super xs xs h'.2
      (fun _ _ hm => jlookup_of_nodup_mem h'.1 hm)
    simp [deep_equal, hkeys]

theorem deep_equal_zip_refl (xs : List Json) (h : jwfList xs = true) :
    deep_equal_zip xs xs = true := by
  match xs with
  | [] => rfl
  | x :: tl =>
    simp only [jwfList, Bool.and_eq_true] at h
    simp only [deep_equal_zip, Bool.and_eq_true]
    exact ⟨deep_equal_refl x h.1, deep_equal_zip_refl tl h.2⟩

theorem deep_equal_keys_super (xs ys : List (String × Json))
    (h : jwfObj xs = true)
    (hsub : ∀ k v, (k, v) ∈ xs → jlookup ys k = some v) :
    deep_equal_keys xs ys = true := by
  match xs with
  | [] => rfl
  | (k, v) :: tl =>
    simp only [jwfObj, Bool.and_eq_true] at h
    simp only [deep_equal_keys, Bool.and_eq_true]
    constructor
    · rw [hsub k v (List.mem_cons_self _ _)]
      exact deep_equal_refl v h.1
    · exact deep_equal_keys_super tl ys h.2
        (fun k' v' hm => hsub k' v' (List.mem_cons_of_mem _ hm))

end

/-! ## Lookup preservation through the merge -/

theorem jlookup_cond_jset (c : Prop) [Decidable c] (l : List (String × Json))
    (key : String) (v : Json) (k : String) (h : k ≠ key) :
    jlookup (if c then jset l key v else l) k = jlookup l k := by
  split
  · exact jlookup_jset_ne _ _ _ _ h
  · rfl

theorem addMetadataFlag_jlookup (r : List (String × Json)) (key : String)
    (elems : Json) (r' : List (String × Json)) (k : String)
    (h : addMetadataFlag r key elems = some r') (h2 : k ≠ "metadata") :
    jlookup r' k = jlookup r k := by
  unfold addMetadataFlag at h
  split at h
  · split at h
    case h_1 md heq =>
      cases h
      exact jlookup_jset_ne _ _ _ _ h2
    case h_2 => cases h
  · cases h
    rfl

theorem apply_brand_guardrails_jlookup (r cc r' : List (String × Json))
    (k : String) (h : apply_brand_guardrails r cc = some r')
    (h1 : k ≠ "negative_prompts") (h2 : k ≠ "metadata") :
    jlookup r' k = jlookup r k := by
  unfold apply_brand_guardrails at h
  split at h
  case h_2 => cases h
  case h_1 guardrails heq =>
    split at h
    case h_1 => cases h
    case h_2 r2 heq2 =>
      rw [addMetadataFlag_jlookup _ _ _ _ _ h h2,
        addMetadataFlag_jlookup _ _ _ _ _ heq2 h2]
      unfold addNegativePrompts
      exact jlookup_cond_jset _ _ _ _ _ h1

theorem applyVariableOverrides_jlookup (res env r2 : List (String × Json))
    (k : String) (h : applyVariableOverrides res env = some r2)
    (h2 : k ≠ "variable_parameters") :
    jlookup r2 k = jlookup res k := by
  unfold applyVariableOverrides at h
  split at h
  case h_1 vp heq =>
    cases h
    exact jlookup_jset_ne _ _ _ _ h2
  case h_2 =>
    split at h
    · cases h
      rfl
    · cases h
  case h_3 =>
    cases h
    rfl

theorem setCulturalContext_jlookup (rc res r' : List (String × Json))
    (k : String) (h : setCulturalContext rc res = some r')
    (h1 : k ≠ "metadata") :
    jlookup r' k = jlookup res k := by
  unfold setCulturalContext at h
  split at h
  case h_1 md heq =>
    cases h
    exact jlookup_jset_ne _ _ _ _ h1
  case h_2 => cases h

theorem merge_configs_jlookup (now : String)
    (m rc : List (String × Json)) (cc : Option (List (String × Json)))
    (r : List (String × Json)) (k : String)
    (h : merge_configs now m rc cc = some r)
    (h1 : k ≠ "metadata") (h2 : k ≠ "variable_parameters")
    (h3 : k ≠ "negative_prompts") :
    jlookup r k = jlookup m k := by
  unfold merge_configs at h
  split at h
  case h_2 => cases h
  case h_1 md heq =>
    split at h
    case h_2 => cases h
    case h_1 envOverrides heq2 =>
      split at h
      case h_1 => cases h
      case h_2 r2 heq3 =>
        split at h
        case h_1 => cases h
        case h_2 r3 heq4 =>
          have e1 : jlookup r2 k =
              jlookup (jset m "metadata" (.obj (stampMetadata now rc md))) k :=
            applyVariableOverrides_jlookup _ _ _ _ heq3 h2
          have e2 : jlookup r3 k = jlookup r2 k := by
            match cc, heq4 with
            | some c, heq4 =>
              exact apply_brand_guardrails_jlookup _ _ _ _ heq4 h3 h1
            | none, heq4 =>
              cases heq4
              rfl
          rw [setCulturalContext_jlookup _ _ _ _ h h1, e2, e1,
            jlookup_jset_ne _ _ _ _ h1]

/-- C1 (Lock preservation): for every master configuration with a dict
`metadata` entry and every region/campaign configuration, a successful
merge yields a request whose `locked_parameters` entry is literally the
master's (hence deep-equal: same keys and values), and
`validate_locked_parameters(master, merged)` returns `True`.  The
well-formedness hypothesis records that the master's locked block comes
from Python dicts (unique keys). -/
theorem lock_preservation (now : String)
    (master rc : List (String × Json)) (cc : Option (List (String × Json)))
    (r : List (String × Json))
    (hm : merge_configs now master rc cc = some r)
    (hwf : jwf (jget master "locked_parameters" (.obj [])) = true) :
    jget r "locked_parameters" (.obj []) =
      jget master "locked_parameters" (.obj []) ∧
    validate_locked_parameters master r = true := by
  have hl : jlookup r "locked_parameters" = jlookup master "locked_parameters" :=
    merge_configs_jlookup now master rc cc r "locked_parameters" hm
      (by decide) (by decide) (by decide)
  refine ⟨by rw [jget, jget, hl], ?_⟩
  unfold validate_locked_parameters
  rw [jget, jget, hl]
  exact deep_equal_refl _ hwf

/-- Example master configuration (the spec's §8 example). -/
def exMaster : List (String × Json) :=
  [("metadata", .obj []),
   ("locked_parameters", .obj [("camera_angle", .str "eye_level")]),
   ("variable_parameters", .obj [("background", .str "neutral")])]

/-- Example region profile (the spec's §8 example). -/
def exRegion : List (String × Json) :=
  [("region_id", .str "tokyo"),
   ("environment_overrides", .obj [("background", .str "neon subway")])]

/-- The request `merge_configs` produces from `exMaster` and `exRegion`. -/
def exMerged : List (String × Json) :=
  [("metadata", .obj [("region_id", .str "tokyo"),
      ("region_name", .null), ("locale", .null),
      ("localized_at", .str "t0"),
      ("cultural_context", .obj [])]),
   ("locked_parameters", .obj [("camera_angle", .str "eye_level")]),
   ("variable_parameters", .obj [("background", .str "neon subway")])]

/-- Witness for `lock_preservation`: the spec's example master/region pair. -/
theorem lock_preservation_witness :
    merge_configs "t0" exMaster exRegion none = some exMerged ∧
    jwf (jget exMaster "locked_parameters" (.obj [])) = true ∧
    (jget exMerged "locked_parameters" (.obj []) =
       jget exMaster "locked_parameters" (.obj []) ∧
     validate_locked_parameters exMaster exMerged = true) := by
  have hm : merge_configs "t0" exMaster exRegion none = some exMerged := rfl
  have hwf : jwf (jget exMaster "locked_parameters" (.obj [])) = true := by
    simp [jwf, jwfObj, jkeys, jget, jlookup, exMaster]
  exact ⟨hm, hwf, lock_preservation "t0" exMaster exRegion none exMerged hm hwf⟩

/-! ## C2: per-key semantics of the override loop -/

theorem applyOverride_jlookup_ne (vp : List (String × Json)) (k1 : String)
    (v1 : Json) (k : String) (h : k ≠ k1) :
    jlookup (applyOverride vp k1 v1) k = jlookup vp k := by
  cases hj : jlookup vp k1 with
  | none => simp [applyOverride, hj, jlookup_jset_ne _ _ _ _ h]
  | some old =>
    cases v1 <;> cases old <;>
      simp [applyOverride, hj, jlookup_jset_ne _ _ _ _ h]

theorem applyOverrides_jlookup_not_mem (vp ov : List (String × Json))
    (k : String) (hk : k ∉ jkeys ov) :
    jlookup (applyOverrides vp ov) k = jlookup vp k := by
  induction ov generalizing vp with
  | nil => rfl
  | cons hd tl ih =>
    obtain ⟨k1, v1⟩ := hd
    simp only [jkeys, List.map_cons, List.mem_cons, not_or] at hk
    show jlookup (applyOverrides (applyOverride vp k1 v1) tl) k = _
    rw [ih _ (by simpa [jkeys] using hk.2), applyOverride_jlookup_ne _ _ _ _ hk.1]

/-- The value the override loop leaves at an overridden key, as a function
of the previous value (`variable_params.get(key)`) and the override: the
branch structure of src/localization_agent.py lines 77–86. -/
def overriddenValue (old : Option Json) (v : Json) : Json :=
  match old, v with
  | some (.obj m), .obj o => .obj (jupdate m o)
  | _, _ => v

theorem applyOverrides_jlookup_mem (vp ov : List (String × Json))
    (k : String) (v : Json) (hn : (jkeys ov).Nodup) (hm : (k, v) ∈ ov) :
    jlookup (applyOverrides vp ov) k =
      some (overriddenValue (jlookup vp k) v) := by
  induction ov generalizing vp with
  | nil => cases hm
  | cons hd tl ih =>
    obtain ⟨k1, v1⟩ := hd
    have hcons : (k1 :: jkeys tl).Nodup := by simpa [jkeys] using hn
    show jlookup (applyOverrides (applyOverride vp k1 v1) tl) k = _
    rcases List.mem_cons.mp hm with he | hmem
    · cases he
      have hnot : k ∉ jkeys tl := (List.nodup_cons.mp hcons).1
      rw [applyOverrides_jlookup_not_mem _ _ _ hnot]
      cases hj : jlookup vp k with
      | none => simp [applyOverride, overriddenValue, hj, jlookup_jset_self]
      | some old =>
        cases v <;> cases old <;>
          simp [applyOverride, overriddenValue, hj, jlookup_jset_self]
    · have hne : k ≠ k1 := by
        rintro rfl
        exact (List.nodup_cons.mp hcons).1 (List.mem_map.mpr ⟨_, hmem, rfl⟩)
      rw [ih _ (List.nodup_cons.mp hcons).2 hmem,
        applyOverride_jlookup_ne _ _ _ _ hne]

/-- C2 (Override merge semantics): for each key/value pair of the region's
overrides (keys are distinct, as in a Python dict), the override loop of
`merge_configs` maps the key to a one-level nested merge when both the
existing value and the override are dicts, and to the override value
otherwise (including insertion of a fresh key); in the one-level merge,
override keys win and non-overridden keys of the existing dict are
retained; keys not overridden are left untouched. -/
theorem override_merge_semantics (vp ov : List (String × Json))
    (k : String) (v : Json) (hn : (jkeys ov).Nodup) (hm : (k, v) ∈ ov) :
    (jlookup (applyOverrides vp ov) k =
      some (overriddenValue (jlookup vp k) v)) ∧
    (∀ m o : List (String × Json), (jkeys o).Nodup →
      ∀ k2, jlookup (jupdate m o) k2 =
        if k2 ∈ jkeys o then jlookup o k2 else jlookup m k2) ∧
    (∀ k2, k2 ∉ jkeys ov → jlookup (applyOverrides vp ov) k2 = jlookup vp k2) :=
  ⟨applyOverrides_jlookup_mem vp ov k v hn hm,
   fun m o h k2 => jlookup_jupdate m o h k2,
   fun k2 h => applyOverrides_jlookup_not_mem vp ov k2 h⟩

/-- Witness for `override_merge_semantics`: a nested-dict override merged
one level deep into existing variable attributes. -/
theorem override_merge_semantics_witness :
    ((jkeys [("lighting", Json.obj [("conditions", Json.str "neon"),
        ("intensity", Json.str "high")])]).Nodup ∧
     ("lighting", Json.obj [("conditions", Json.str "neon"),
        ("intensity", Json.str "high")]) ∈
       [("lighting", Json.obj [("conditions", Json.str "neon"),
          ("intensity", Json.str "high")])]) ∧
    (jlookup (applyOverrides
        [("lighting", .obj [("conditions", .str "soft"), ("temperature", .str "warm")]),
         ("background", .str "neutral")]
        [("lighting", Json.obj [("conditions", Json.str "neon"),
          ("intensity", Json.str "high")])]) "lighting" =
      some (overriddenValue (jlookup
          [("lighting", .obj [("conditions", .str "soft"), ("temperature", .str "warm")]),
           ("background", .str "neutral")] "lighting")
          (Json.obj [("conditions", Json.str "neon"),
            ("intensity", Json.str "high")]))) := by
  have hn : (jkeys [("lighting", Json.obj [("conditions", Json.str "neon"),
      ("intensity", Json.str "high")])]).Nodup := by
    simp [jkeys]
  have hm := List.mem_singleton_self
    ("lighting", Json.obj [("conditions", Json.str "neon"),
      ("intensity", Json.str "high")])
  exact ⟨⟨hn, hm⟩, (override_merge_semantics _ _ _ _ hn hm).1⟩

/-! ## `SchemaSanitizer` (src/schema_sanitizer.py) -/

/-- `needle` occurs at the start of `hay` (character lists). -/
def chStarts : List Char → List Char → Bool
  | [], _ => true
  | _ :: _, [] => false
  | a :: as, b :: bs => a == b && chStarts as bs

/-- Python's `needle in hay` on strings: substring containment. -/
def chSub (needle hay : List Char) : Bool :=
  chStarts needle hay ||
    match hay with
    | [] => false
    | _ :: t => chSub needle t

/-- Python's `needle in hay` on strings. -/
def strIn (needle hay : String) : Bool := chSub needle.data hay.data

/-- Python's `str.lower()` (per-character, as for the ASCII data here). -/
def pyLower (s : String) : String := ⟨s.data.map Char.toLower⟩

/-- Python's `str.strip()`: drop leading and trailing whitespace. -/
def pyStrip (s : String) : String :=
  ⟨((s.data.dropWhile Char.isWhitespace).reverse.dropWhile
      Char.isWhitespace).reverse⟩

/-- Lookup in a Python dict with values of any type (first binding). -/
def alookup {α : Type} (kvs : List (String × α)) (k : String) : Option α :=
  match kvs with
  | [] => none
  | (k', v) :: rest => if k' = k then some v else alookup rest k

/-- `SchemaSanitizer._sanitize_value` (src/schema_sanitizer.py 85–116):
exact match on the lower-cased/stripped value wins, then the first table
entry whose key contains or is contained in the normalized value, else
pass-through.  `mappings` is the table loaded from `vlm_to_fibo_map.json`
(a data file, not code); the function is total on strings. -/
def sanitize_value (mappings : List (String × List (String × String)))
    (value : String) (parameter_type : String) : String :=
  match alookup mappings parameter_type with
  | none => value
  | some table =>
    match alookup table (pyStrip (pyLower value)) with
    | some fibo => fibo
    | none =>
      match table.find?
          (fun kv => strIn kv.1 (pyStrip (pyLower value)) ||
            strIn (pyStrip (pyLower value)) kv.1) with
      | some kv => kv.2
      | none => value

/-- The hardcoded focal-length description table
(src/schema_sanitizer.py 133–140, in insertion order). -/
def focal_mappings : List (String × String) :=
  [("macro", "macro"), ("wide", "24mm"), ("wide angle", "24mm"),
   ("standard", "50mm"), ("portrait", "85mm"), ("telephoto", "200mm")]

/-- `SchemaSanitizer._sanitize_focal_length` (src/schema_sanitizer.py
118–147): keep anything containing "mm", else map the first matching
description, else pass through. -/
def sanitize_focal_length (focal_length : String) : String :=
  if strIn "mm" (pyLower focal_length) then focal_length
  else
    match focal_mappings.find?
        (fun kv => strIn kv.1 (pyStrip (pyLower focal_length))) with
    | some kv => kv.2
    | none => focal_length

/-- `photo[field] = self._sanitize_value(photo[field], ptype)` guarded by
`if field in photo` (src/schema_sanitizer.py 53–57, 70–74, 77–81); `none`
where the Python raises (`.lower()` on a non-string value). -/
def sanitizeField (mappings : List (String × List (String × String)))
    (d : List (String × Json)) (field ptype : String) :
    Option (List (String × Json)) :=
  match jlookup d field with
  | some (.str v) => some (jset d field (.str (sanitize_value mappings v ptype)))
  | some _ => none
  | none => some d

/-- `photo["lens_focal_length"] = self._sanitize_focal_length(...)` guarded
by `if "lens_focal_length" in photo` (src/schema_sanitizer.py 60–63). -/
def sanitizeFocalField (d : List (String × Json)) :
    Option (List (String × Json)) :=
  match jlookup d "lens_focal_length" with
  | some (.str v) =>
      some (jset d "lens_focal_length" (.str (sanitize_focal_length v)))
  | some _ => none
  | none => some d

/-- `SchemaSanitizer.sanitize` on an already-parsed dict
(src/schema_sanitizer.py 32–83).  Containers of unexpected shape (a
non-dict `photographic_characteristics` or `lighting`) are modelled
conservatively as errors; Python raises for most such shapes. -/
def sanitize (mappings : List (String × List (String × String)))
    (prompt : List (String × Json)) : Option (List (String × Json)) :=
  match (match jlookup prompt "photographic_characteristics" with
    | some (.obj photo) =>
      match sanitizeField mappings photo "camera_angle" "camera_angle" with
      | none => none
      | some p1 =>
        match sanitizeFocalField p1 with
        | none => none
        | some p2 => some (jset prompt "photographic_characteristics" (.obj p2))
    | some _ => none
    | none => some prompt) with
  | none => none
  | some prompt1 =>
    match (match jlookup prompt1 "lighting" with
      | some (.obj lighting) =>
        match sanitizeField mappings lighting "conditions" "lighting_type" with
        | none => none
        | some l1 => some (jset prompt1 "lighting" (.obj l1))
      | some _ => none
      | none => some prompt1) with
    | none => none
    | some prompt2 =>
      match jlookup prompt2 "style_medium" with
      | some (.str v) =>
          some (jset prompt2 "style_medium"
            (.str (sanitize_value mappings v "style_medium")))
      | some _ => none
      | none => some prompt2

theorem alookup_mem {α : Type} (l : List (String × α)) (k : String) (v : α)
    (h : alookup l k = some v) : v ∈ l.map Prod.snd := by
  induction l with
  | nil => cases h
  | cons hd tl ih =>
    obtain ⟨k1, v1⟩ := hd
    by_cases he : k1 = k
    · simp [alookup, he] at h
      simp [h]
    · simp [alookup, he] at h
      simp [ih h]

theorem alookup_of_mem_keys {α : Type} (l : List (String × α)) (k : String)
    (h : k ∈ l.map Prod.fst) : ∃ v, alookup l k = some v := by
  induction l with
  | nil => simp at h
  | cons hd tl ih =>
    obtain ⟨k1, v1⟩ := hd
    by_cases he : k1 = k
    · exact ⟨v1, by simp [alookup, he]⟩
    · have h1 : k ∈ tl.map Prod.fst := by
        simp only [List.map_cons, List.mem_cons] at h
        rcases h with h | h
        · exact absurd h.symm he
        · exact h
      obtain ⟨v, hv⟩ := ih h1
      exact ⟨v, by simp [alookup, he, hv]⟩

/-- A field of a dict that, if present, holds a string (the contract of
VLM attribute values that `_sanitize_value` operates on). -/
def StrOrAbsent (d : List (String × Json)) (f : String) : Prop :=
  ∀ v, jlookup d f = some v → ∃ s, v = Json.str s

/-- The shape `SchemaSanitizer.sanitize` expects of a structured prompt:
the attribute values it touches are strings when present. -/
def PromptOk (prompt : List (String × Json)) : Prop :=
  (∀ p, jlookup prompt "photographic_characteristics" = some p →
    ∃ pd, p = Json.obj pd ∧ StrOrAbsent pd "camera_angle" ∧
      StrOrAbsent pd "lens_focal_length") ∧
  (∀ p, jlookup prompt "lighting" = some p →
    ∃ ld, p = Json.obj ld ∧ StrOrAbsent ld "conditions") ∧
  StrOrAbsent prompt "style_medium"

theorem sanitizeField_isSome (mappings : List (String × List (String × String)))
    (d : List (String × Json)) (field ptype : String)
    (hd : StrOrAbsent d field) :
    ∃ d', sanitizeField mappings d field ptype = some d' := by
  cases hj : jlookup d field with
  | none => exact ⟨d, by simp [sanitizeField, hj]⟩
  | some v =>
    obtain ⟨s, rfl⟩ := hd v hj
    exact ⟨jset d field (.str (sanitize_value mappings s ptype)),
      by simp [sanitizeField, hj]⟩

theorem sanitizeFocalField_isSome (d : List (String × Json))
    (hd : StrOrAbsent d "lens_focal_length") :
    ∃ d', sanitizeFocalField d = some d' := by
  cases hj : jlookup d "lens_focal_length" with
  | none => exact ⟨d, by simp [sanitizeFocalField, hj]⟩
  | some v =>
    obtain ⟨s, rfl⟩ := hd v hj
    exact ⟨jset d "lens_focal_length" (.str (sanitize_focal_length s)),
      by simp [sanitizeFocalField, hj]⟩

theorem jlookup_jset_strOrAbsent (d : List (String × Json)) (key : String)
    (v : Json) (f : String) (h : f ≠ key) (hd : StrOrAbsent d f) :
    StrOrAbsent (jset d key v) f := by
  intro w hw
  rw [jlookup_jset_ne _ _ _ _ h] at hw
  exact hd w hw

/-- C5 (Sanitizer totality): `_sanitize_value` is total on raw string
values (including empty and unknown strings) and its output is either the
unchanged input or one of the mapping table's enumeration values; a value
whose normalization is a key of the table maps to a table value; a value
with no exact and no substring match passes through unchanged; and
`sanitize` succeeds (never raises) on any structured prompt whose tracked
attribute values are strings. -/
theorem sanitizer_totality (mappings : List (String × List (String × String)))
    (value ptype : String) (prompt : List (String × Json)) :
    (sanitize_value mappings value ptype = value ∨
      ∃ table, alookup mappings ptype = some table ∧
        sanitize_value mappings value ptype ∈ table.map Prod.snd) ∧
    (∀ table, alookup mappings ptype = some table →
      (pyStrip (pyLower value)) ∈ table.map Prod.fst →
      sanitize_value mappings value ptype ∈ table.map Prod.snd) ∧
    (∀ table, alookup mappings ptype = some table →
      alookup table (pyStrip (pyLower value)) = none →
      (∀ kv ∈ table, strIn kv.1 (pyStrip (pyLower value)) = false ∧
        strIn (pyStrip (pyLower value)) kv.1 = false) →
      sanitize_value mappings value ptype = value) ∧
    (PromptOk prompt → ∃ r, sanitize mappings prompt = some r) := by
  refine ⟨?_, ?_, ?_, ?_⟩
  · cases ht : alookup mappings ptype with
    | none => exact Or.inl (by simp [sanitize_value, ht])
    | some table =>
      cases he : alookup table (pyStrip (pyLower value)) with
      | some fibo =>
        refine Or.inr ⟨table, rfl, ?_⟩
        simpa [sanitize_value, ht, he] using alookup_mem _ _ _ he
      | none =>
        cases hf : table.find?
            (fun kv => strIn kv.1 (pyStrip (pyLower value)) ||
              strIn (pyStrip (pyLower value)) kv.1) with
        | some kv =>
          refine Or.inr ⟨table, rfl, ?_⟩
          have hkv := List.mem_of_find?_eq_some hf
          simp only [sanitize_value, ht, he, hf]
          exact List.mem_map.mpr ⟨kv, hkv, rfl⟩
        | none => exact Or.inl (by simp [sanitize_value, ht, he, hf])
  · intro table ht hk
    obtain ⟨v, hv⟩ := alookup_of_mem_keys table _ hk
    simpa [sanitize_value, ht, hv] using alookup_mem _ _ _ hv
  · intro table ht he hnone
    have hf : table.find?
        (fun kv => strIn kv.1 (pyStrip (pyLower value)) ||
          strIn (pyStrip (pyLower value)) kv.1) = none := by
      rw [List.find?_eq_none]
      intro kv hkv
      simp [(hnone kv hkv).1, (hnone kv hkv).2]
    simp [sanitize_value, ht, he, hf]
  · rintro ⟨hphoto, hlight, hstyle⟩
    have step1 : ∃ prompt1,
        (match jlookup prompt "photographic_characteristics" with
          | some (.obj photo) =>
            match sanitizeField mappings photo "camera_angle" "camera_angle" with
            | none => none
            | some p1 =>
              match sanitizeFocalField p1 with
              | none => none
              | some p2 =>
                  some (jset prompt "photographic_characteristics" (.obj p2))
          | some _ => none
          | none => some prompt) = some prompt1 ∧
        jlookup prompt1 "lighting" = jlookup prompt "lighting" ∧
        jlookup prompt1 "style_medium" = jlookup prompt "style_medium" := by
      cases hp : jlookup prompt "photographic_characteristics" with
      | none => exact ⟨prompt, by simp, rfl, rfl⟩
      | some p =>
        obtain ⟨pd, rfl, hca, hfl⟩ := hphoto p hp
        obtain ⟨p1, hp1⟩ := sanitizeField_isSome mappings pd "camera_angle" "camera_angle" hca
        have hfl1 : StrOrAbsent p1 "lens_focal_length" := by
          cases hj : jlookup pd "camera_angle" with
          | none => simp [sanitizeField, hj] at hp1; exact hp1 ▸ hfl
          | some v =>
            obtain ⟨s, rfl⟩ := hca v hj
            simp [sanitizeField, hj] at hp1
            exact hp1 ▸ jlookup_jset_strOrAbsent pd "camera_angle" _ _
              (by decide) hfl
        obtain ⟨p2, hp2⟩ := sanitizeFocalField_isSome p1 hfl1
        refine ⟨jset prompt "photographic_characteristics" (.obj p2),
          by simp [hp, hp1, hp2], ?_, ?_⟩
        · exact jlookup_jset_ne _ _ _ _ (by decide)
        · exact jlookup_jset_ne _ _ _ _ (by decide)
    obtain ⟨prompt1, hs1, hl1, hm1⟩ := step1
    have step2 : ∃ prompt2,
        (match jlookup prompt1 "lighting" with
          | some (.obj lighting) =>
            match sanitizeField mappings lighting "conditions" "lighting_type" with
            | none => none
            | some l1 => some (jset prompt1 "lighting" (.obj l1))
          | some _ => none
          | none => some prompt1) = some prompt2 ∧
        jlookup prompt2 "style_medium" = jlookup prompt "style_medium" := by
      cases hp : jlookup prompt1 "lighting" with
      | none => exact ⟨prompt1, by simp, hm1⟩
      | some p =>
        obtain ⟨ld, rfl, hc⟩ := hlight p (hl1 ▸ hp)
        obtain ⟨l1, hsome⟩ := sanitizeField_isSome mappings ld "conditions" "lighting_type" hc
        refine ⟨jset prompt1 "lighting" (.obj l1), by simp [hp, hsome], ?_⟩
        rw [jlookup_jset_ne _ _ _ _ (by decide)]
        exact hm1
    obtain ⟨prompt2, hs2, hm2⟩ := step2
    cases hst : jlookup prompt2 "style_medium" with
    | none =>
      refine ⟨prompt2, ?_⟩
      simp only [sanitize, hs1, hs2, hst]
    | some v =>
      obtain ⟨s, rfl⟩ := hstyle v (hm2 ▸ hst)
      refine ⟨jset prompt2 "style_medium"
        (.str (sanitize_value mappings s "style_medium")), ?_⟩
      simp only [sanitize, hs1, hs2, hst]

/-- Witness for `sanitizer_totality`: a two-entry camera-angle table, the
raw value "Low Angle", and a small prompt. -/
theorem sanitizer_totality_witness :
    (alookup [("camera_angle",
        [("low angle", "low_angle"), ("high angle", "high_angle")])]
      "camera_angle" =
        some [("low angle", "low_angle"), ("high angle", "high_angle")] ∧
     (pyStrip (pyLower "Low Angle")) ∈
       ([("low angle", "low_angle"), ("high angle", "high_angle")]).map Prod.fst ∧
     PromptOk [("style_medium", Json.str "photo")]) ∧
    (sanitize_value [("camera_angle",
        [("low angle", "low_angle"), ("high angle", "high_angle")])]
      "Low Angle" "camera_angle" ∈
        ([("low angle", "low_angle"), ("high angle", "high_angle")]).map Prod.snd ∧
     ∃ r, sanitize [("camera_angle",
        [("low angle", "low_angle"), ("high angle", "high_angle")])]
       [("style_medium", Json.str "photo")] = some r) := by
  have hok : PromptOk [("style_medium", Json.str "photo")] := by
    refine ⟨?_, ?_, ?_⟩
    · intro p h
      simp [jlookup] at h
    · intro p h
      simp [jlookup] at h
    · intro v hv
      simp [jlookup] at hv
      exact ⟨"photo", hv.symm⟩
  have hmem : (pyStrip (pyLower "Low Angle")) ∈
      ([("low angle", "low_angle"), ("high angle", "high_angle")]).map Prod.fst := by
    decide
  have hthm := sanitizer_totality
    [("camera_angle", [("low angle", "low_angle"), ("high angle", "high_angle")])]
    "Low Angle" "camera_angle" [("style_medium", Json.str "photo")]
  exact ⟨⟨rfl, hmem, hok⟩, hthm.2.1 _ rfl hmem, hthm.2.2.2 hok⟩

/-! ## `StateManager` (src/error_recovery.py 38–119) -/

/-- Field access on a JSON object value. -/
def jfield (j : Json) (k : String) : Option Json :=
  match j with
  | .obj kvs => jlookup kvs k
  | _ => none

/-- `StateManager.save_state` (src/error_recovery.py 38–92): the
`state_data` document written to the state file.  `nowIso` stands for
`datetime.now().isoformat()`.  `error_info or {}` (line 74) falls back to
an empty dict whenever `error_info` is `None` or falsy. -/
def save_state (nowIso : String) (campaign_id : String) (master_json : Json)
    (processed_regions pending_regions : List Json)
    (error_info : Option Json) : Json :=
  .obj [("version", .str "1.0"),
        ("saved_at", .str nowIso),
        ("campaign_id", .str campaign_id),
        ("master_json", master_json),
        ("progress", .obj [
          ("total_regions",
            .num ((processed_regions.length : Int) + pending_regions.length)),
          ("processed", .num processed_regions.length),
          ("pending", .num pending_regions.length),
          ("processed_regions", .arr processed_regions),
          ("pending_regions", .arr pending_regions)]),
        ("error_info", match error_info with
          | some e => if jtruthy e then e else .obj []
          | none => .obj []),
        ("recovery_instructions", .obj [
          ("message", .str "Use StateManager.load_state() to resume processing"),
          ("next_action", .str "Process pending_regions list")])]

/-- `StateManager.load_state` (src/error_recovery.py 94–119): parse the
state file and return it.  `json.dump` followed by `json.load` round-trips
the JSON tree, so the file content is modelled as the tree itself. -/
def load_state (state_file_content : Json) : Json := state_file_content

/-- C7 counterexample: with `err = None` (Python `None`, `Json.null`),
`save_state` stores `error_info or {}`, so the loaded state's
`error_info` is the empty dict, not `None` — "error_info equals err
exactly" fails at this input. -/
theorem recovery_round_trip_counterexample :
    jfield (load_state (save_state "t" "camp" (.obj []) [] [] none))
      "error_info" = some (.obj []) ∧
    some (Json.obj []) ≠ some Json.null := by
  refine ⟨rfl, fun h => ?_⟩
  exact Json.noConfusion (Option.some.inj h)

/-- C7 amended (Recovery round-trip): loading the state saved for
`(c, m, proc, pend, err)` reproduces the campaign id, the master
configuration, the processed/pending region lists and their counts
exactly; `error_info` equals `err` when `err` is given and truthy, and is
the empty dict when `err` is `None` (or falsy). -/
theorem recovery_round_trip (nowIso c : String) (m : Json)
    (proc pend : List Json) (err : Option Json) :
    jfield (load_state (save_state nowIso c m proc pend err))
      "campaign_id" = some (.str c) ∧
    jfield (load_state (save_state nowIso c m proc pend err))
      "master_json" = some m ∧
    (∃ pg, jfield (load_state (save_state nowIso c m proc pend err))
        "progress" = some (.obj pg) ∧
      jlookup pg "processed" = some (.num proc.length) ∧
      jlookup pg "pending" = some (.num pend.length) ∧
      jlookup pg "total_regions" =
        some (.num ((proc.length : Int) + pend.length)) ∧
      jlookup pg "processed_regions" = some (.arr proc) ∧
      jlookup pg "pending_regions" = some (.arr pend)) ∧
    (∀ e, err = some e → jtruthy e = true →
      jfield (load_state (save_state nowIso c m proc pend err))
        "error_info" = some e) ∧
    ((err = none ∨ ∃ e, err = some e ∧ jtruthy e = false) →
      jfield (load_state (save_state nowIso c m proc pend err))
        "error_info" = some (.obj [])) := by
  refine ⟨rfl, rfl, ⟨_, rfl, rfl, rfl, rfl, rfl, rfl⟩, ?_, ?_⟩
  · rintro e rfl he
    simp [load_state, save_state, jfield, jlookup, he]
  · rintro (rfl | ⟨e, rfl, he⟩)
    · rfl
    · simp [load_state, save_state, jfield, jlookup, he]

/-- Witness for `recovery_round_trip`: a truthy error dict and a falsy
`None` error. -/
theorem recovery_round_trip_witness :
    ((some (Json.obj [("msg", Json.str "boom")]) =
        some (Json.obj [("msg", Json.str "boom")]) ∧
      jtruthy (Json.obj [("msg", Json.str "boom")]) = true) ∧
     ((none : Option Json) = none ∨ ∃ e, (none : Option Json) = some e ∧
        jtruthy e = false)) ∧
    jfield (load_state (save_state "t" "camp" (.obj [("v", .num 1)])
        [.str "us"] [.str "jp", .str "de"]
        (some (Json.obj [("msg", Json.str "boom")]))))
      "error_info" = some (Json.obj [("msg", Json.str "boom")]) ∧
    jfield (load_state (save_state "t" "camp" (.obj [("v", .num 1)])
        [.str "us"] [.str "jp", .str "de"] none))
      "error_info" = some (.obj []) := by
  refine ⟨⟨⟨rfl, rfl⟩, Or.inl rfl⟩, ?_, ?_⟩
  · exact (recovery_round_trip "t" "camp" (.obj [("v", .num 1)])
      [.str "us"] [.str "jp", .str "de"]
      (some (Json.obj [("msg", Json.str "boom")]))).2.2.2.1
      _ rfl rfl
  · exact (recovery_round_trip "t" "camp" (.obj [("v", .num 1)])
      [.str "us"] [.str "jp", .str "de"] none).2.2.2.2 (Or.inl rfl)

/-! ## `C2PAManager.calculate_json_fingerprint` (src/c2pa_manager.py 70–89)

`json.dumps(json_data, sort_keys=True, separators=(',', ':'))` followed by
a SHA-256 hexdigest.  The serializer below implements `json.dumps` with
sorted keys, compact separators and `ensure_ascii` escaping; `hashlib`'s
SHA-256 is an external library, so the hash is a parameter — every theorem
holds for an arbitrary function of the serialized string. -/

/-- Hexadecimal digit (lower case, as in Python's `\uXXXX` escapes). -/
def hexDigit (n : Nat) : Char :=
  if n < 10 then Char.ofNat (48 + n)
  else if n < 16 then Char.ofNat (87 + n)
  else '0'

/-- Four-digit hexadecimal rendering for `\uXXXX`. -/
def hex4 (n : Nat) : String :=
  ⟨[hexDigit (n / 4096 % 16), hexDigit (n / 256 % 16),
    hexDigit (n / 16 % 16), hexDigit (n % 16)]⟩

/-- `json.dumps` escaping of one character (`ensure_ascii=True`). -/
def escapeChar (c : Char) : String :=
  if c = '"' then "\\\""
  else if c = '\\' then "\\\\"
  else if c = '\n' then "\\n"
  else if c = '\t' then "\\t"
  else if c = '\r' then "\\r"
  else if c.toNat = 8 then "\\b"
  else if c.toNat = 12 then "\\f"
  else if c.toNat < 32 ∨ c.toNat > 126 then
    if c.toNat < 65536 then "\\u" ++ hex4 c.toNat
    else "\\u" ++ hex4 (55296 + (c.toNat - 65536) / 1024) ++
         "\\u" ++ hex4 (56320 + (c.toNat - 65536) % 1024)
  else String.singleton c

/-- `json.dumps` rendering of a string literal. -/
def jsonQuote (s : String) : String :=
  "\"" ++ String.join (s.data.map escapeChar) ++ "\""

/-- Comparison `sort_keys=True` uses: order object entries by key. -/
def keyLe (p q : String × Json) : Bool := p.1 ≤ q.1

/-- Join serialized items with the `','` item separator. -/
def commaJoin : List String → String
  | [] => ""
  | [s] => s
  | s :: rest => s ++ "," ++ commaJoin rest

mutual

/-- `json.dumps(·, sort_keys=True, separators=(',', ':'))` on a JSON
tree (for the integer-and-below fragment the fingerprinted configs use). -/
def dumps : Json → String
  | .null => "null"
  | .bool b => cond b "true" "false"
  | .num n => toString n
  | .str s => jsonQuote s
  | .arr xs => "[" ++ commaJoin (dumpsList xs) ++ "]"
  | .obj kvs => "\x7b" ++ commaJoin (dumpsObj (kvs.mergeSort keyLe)) ++ "\x7d"
termination_by j => sizeOf j
decreasing_by
  · simp only [Json.arr.sizeOf_spec]
    omega
  · have h := (List.mergeSort_perm l keyLe).sizeOf_eq_sizeOf
    simp only [Json.obj.sizeOf_spec]
    omega

/-- Serialized items of an array. -/
def dumpsList : List Json → List String
  | [] => []
  | x :: xs => dumps x :: dumpsList xs
termination_by l => sizeOf l
decreasing_by
  all_goals simp only [List.cons.sizeOf_spec, Prod.mk.sizeOf_spec]
  all_goals omega

/-- Serialized `"key":value` items of an object (already key-sorted). -/
def dumpsObj : List (String × Json) → List String
  | [] => []
  | (k, v) :: rest => (jsonQuote k ++ ":" ++ dumps v) :: dumpsObj rest
termination_by l => sizeOf l
decreasing_by
  all_goals simp only [List.cons.sizeOf_spec, Prod.mk.sizeOf_spec]
  all_goals omega

end

/-- `C2PAManager.calculate_json_fingerprint` (src/c2pa_manager.py 70–89):
hash of the canonical (key-sorted, compact) serialization; `sha256hex`
stands for `hashlib.sha256(...).hexdigest()`. -/
def calculate_json_fingerprint (sha256hex : String → String)
    (json_data : List (String × Json)) : String :=
  sha256hex (dumps (.obj json_data))

theorem jwfObj_mem {xs : List (String × Json)} (h : jwfObj xs = true)
    {k : String} {v : Json} (hm : (k, v) ∈ xs) : jwf v = true := by
  induction xs with
  | nil => cases hm
  | cons hd tl ih =>
    obtain ⟨k1, v1⟩ := hd
    simp only [jwfObj, Bool.and_eq_true] at h
    rcases List.mem_cons.mp hm with he | hmem
    · cases he
      exact h.1
    · exact ih h.2 hmem

theorem deep_equal_keys_lookup {xs ys : List (String × Json)}
    (h : deep_equal_keys xs ys = true) {k : String} {v : Json}
    (hm : (k, v) ∈ xs) :
    ∃ w, jlookup ys k = some w ∧ deep_equal v w = true := by
  induction xs with
  | nil => cases hm
  | cons hd tl ih =>
    obtain ⟨k1, v1⟩ := hd
    simp only [deep_equal_keys, Bool.and_eq_true] at h
    rcases List.mem_cons.mp hm with he | hmem
    · cases he
      obtain ⟨h1, _⟩ := h
      cases hj : jlookup ys k with
      | none => rw [hj] at h1; cases h1
      | some w =>
        rw [hj] at h1
        exact ⟨w, rfl, h1⟩
    · exact ih h.2 hmem

theorem keyLe_trans (a b c : String × Json) (h1 : keyLe a b = true)
    (h2 : keyLe b c = true) : keyLe a c = true := by
  simp only [keyLe, decide_eq_true_eq] at h1 h2 ⊢
  exact le_trans h1 h2

theorem keyLe_total (a b : String × Json) : (keyLe a b || keyLe b a) = true := by
  simp only [keyLe, Bool.or_eq_true, decide_eq_true_eq]
  exact le_total a.1 b.1

/-- Two key-permuted objects have identical key-sorted key sequences. -/
theorem sortedKeys_eq {xs ys : List (String × Json)}
    (hperm : (jkeys xs).Perm (jkeys ys)) :
    List.map Prod.fst (xs.mergeSort keyLe) =
      List.map Prod.fst (ys.mergeSort keyLe) := by
  have hsx := List.sorted_mergeSort keyLe_trans keyLe_total xs
  have hsy := List.sorted_mergeSort keyLe_trans keyLe_total ys
  have p1 : (List.map Prod.fst (xs.mergeSort keyLe)).Perm (jkeys xs) :=
    (List.mergeSort_perm xs keyLe).map Prod.fst
  have p2 : (List.map Prod.fst (ys.mergeSort keyLe)).Perm (jkeys ys) :=
    (List.mergeSort_perm ys keyLe).map Prod.fst
  have hp : (List.map Prod.fst (xs.mergeSort keyLe)).Perm
      (List.map Prod.fst (ys.mergeSort keyLe)) :=
    p1.trans (hperm.trans p2.symm)
  have hs1 : List.Sorted (· ≤ ·) (List.map Prod.fst (xs.mergeSort keyLe)) :=
    List.pairwise_map.mpr
      (hsx.imp (fun h => by simpa [keyLe, decide_eq_true_eq] using h))
  have hs2 : List.Sorted (· ≤ ·) (List.map Prod.fst (ys.mergeSort keyLe)) :=
    List.pairwise_map.mpr
      (hsy.imp (fun h => by simpa [keyLe, decide_eq_true_eq] using h))
  exact List.eq_of_perm_of_sorted hp hs1 hs2

/-- Serialized object items coincide whenever the key sequences coincide
and same-keyed values serialize equally. -/
theorem dumpsObj_congr : ∀ sx sy : List (String × Json),
    List.map Prod.fst sx = List.map Prod.fst sy →
    (∀ p ∈ sx, ∀ q ∈ sy, p.1 = q.1 → dumps p.2 = dumps q.2) →
    dumpsObj sx = dumpsObj sy := by
  intro sx
  induction sx with
  | nil =>
    intro sy h _
    cases sy with
    | nil => rfl
    | cons hd tl => simp at h
  | cons hd tl ih =>
    intro sy hk hv
    cases sy with
    | nil => simp at hk
    | cons hd2 tl2 =>
      obtain ⟨k1, v1⟩ := hd
      obtain ⟨k2, v2⟩ := hd2
      simp only [List.map_cons, List.cons.injEq] at hk
      obtain ⟨rfl, hktl⟩ := hk
      have hval : dumps v1 = dumps v2 :=
        hv _ (List.mem_cons_self _ _) _ (List.mem_cons_self _ _) rfl
      have htl : dumpsObj tl = dumpsObj tl2 :=
        ih tl2 hktl (fun p hp q hq h =>
          hv p (List.mem_cons_of_mem _ hp) q (List.mem_cons_of_mem _ hq) h)
      simp [dumpsObj, hval, htl]

/-- Serialized array items coincide for pointwise `_deep_equal` lists. -/
theorem dumpsList_congr : ∀ xs ys : List Json,
    (∀ x ∈ xs, ∀ y, deep_equal x y = true → jwf x = true → jwf y = true →
      dumps x = dumps y) →
    xs.length = ys.length → deep_equal_zip xs ys = true →
    jwfList xs = true → jwfList ys = true →
    dumpsList xs = dumpsList ys := by
  intro xs
  induction xs with
  | nil =>
    intro ys _ hlen _ _ _
    cases ys with
    | nil => rfl
    | cons hd tl => simp at hlen
  | cons x tl ih =>
    intro ys hrec hlen hde hw1 hw2
    cases ys with
    | nil => simp at hlen
    | cons y tl2 =>
      simp only [deep_equal_zip, Bool.and_eq_true] at hde
      simp only [jwfList, Bool.and_eq_true] at hw1 hw2
      have h1 : dumps x = dumps y :=
        hrec x (List.mem_cons_self _ _) y hde.1 hw1.1 hw2.1
      have h2 := ih tl2 (fun a ha b => hrec a (List.mem_cons_of_mem _ ha) b)
        (by simpa using hlen) hde.2 hw1.2 hw2.2
      simp [dumpsList, h1, h2]

/-- `_deep_equal` well-formed values have equal canonical serializations
(induction on size). -/
theorem dumps_eq_of_deep_equal_aux : ∀ (n : Nat) (a b : Json), sizeOf a ≤ n →
    deep_equal a b = true → jwf a = true → jwf b = true →
    dumps a = dumps b := by
  intro n
  induction n with
  | zero =>
    intro a b hsz
    exact absurd hsz (by cases a <;> simp)
  | succ n ih =>
    intro a b hsz hde hwa hwb
    cases a <;> cases b
    case null.null => rfl
    case bool.bool x y =>
      simp only [deep_equal, beq_iff_eq] at hde
      rw [hde]
    case num.num x y =>
      simp only [deep_equal, beq_iff_eq] at hde
      rw [hde]
    case str.str x y =>
      simp only [deep_equal, beq_iff_eq] at hde
      rw [hde]
    case arr.arr xs ys =>
      simp only [deep_equal, Bool.and_eq_true, beq_iff_eq] at hde
      simp only [jwf] at hwa hwb
      have hlist := dumpsList_congr xs ys
        (fun x hx y hdexy hwx hwy => by
          have h1 := List.sizeOf_lt_of_mem hx
          have h2 : sizeOf (Json.arr xs) = 1 + sizeOf xs := by simp
          exact ih x y (by omega) hdexy hwx hwy)
        hde.1 hde.2 hwa hwb
      simp [dumps, hlist]
    case obj.obj xs ys =>
      simp only [deep_equal, Bool.and_eq_true, decide_eq_true_eq] at hde
      simp only [jwf, Bool.and_eq_true, decide_eq_true_eq] at hwa hwb
      obtain ⟨hfin, hkeys⟩ := hde
      obtain ⟨hn1, hw1⟩ := hwa
      obtain ⟨hn2, hw2⟩ := hwb
      have hperm : (jkeys xs).Perm (jkeys ys) :=
        List.perm_of_nodup_nodup_toFinset_eq hn1 hn2 hfin
      have hkeq := sortedKeys_eq hperm
      have hval : ∀ p ∈ xs.mergeSort keyLe, ∀ q ∈ ys.mergeSort keyLe,
          p.1 = q.1 → dumps p.2 = dumps q.2 := by
        intro p hp q hq hpq
        have hpx : p ∈ xs := (List.mergeSort_perm xs keyLe).subset hp
        have hqy : q ∈ ys := (List.mergeSort_perm ys keyLe).subset hq
        obtain ⟨k, v⟩ := p
        obtain ⟨k2, w⟩ := q
        cases hpq
        obtain ⟨w', hlw, hdw⟩ := deep_equal_keys_lookup hkeys hpx
        have hlq : jlookup ys k = some w := jlookup_of_nodup_mem hn2 hqy
        rw [hlq] at hlw
        cases hlw
        have h1 := List.sizeOf_lt_of_mem hpx
        have h2 : sizeOf (Json.obj xs) = 1 + sizeOf xs := by simp
        have h3 : sizeOf (k, v) = 1 + sizeOf k + sizeOf v :=
          Prod.mk.sizeOf_spec k v
        exact ih v w (by omega) hdw (jwfObj_mem hw1 hpx) (jwfObj_mem hw2 hqy)
      have hobj := dumpsObj_congr _ _ hkeq hval
      simp [dumps, hobj]
    all_goals simp [deep_equal] at hde

/-- C8 (Fingerprint determinism): `calculate_json_fingerprint` is a pure
function of its input (same hash on every call), and on well-formed
configurations with the same logical content regardless of key insertion
order — content equality as decided by the repository's own `_deep_equal`,
which compares dicts by key set — it produces the same fingerprint, for
every hash function standing in for SHA-256. -/
theorem fingerprint_determinism (sha256hex : String → String)
    (m₁ m₂ : List (String × Json)) :
    calculate_json_fingerprint sha256hex m₁ =
        calculate_json_fingerprint sha256hex m₁ ∧
    (jwf (.obj m₁) = true → jwf (.obj m₂) = true →
      deep_equal (.obj m₁) (.obj m₂) = true →
      calculate_json_fingerprint sha256hex m₁ =
        calculate_json_fingerprint sha256hex m₂) :=
  ⟨rfl, fun h1 h2 hde => congrArg sha256hex
    (dumps_eq_of_deep_equal_aux (sizeOf (Json.obj m₁)) _ _ le_rfl hde h1 h2)⟩

/-- Witness for `fingerprint_determinism`: two configurations with the
same content whose keys (also nested ones) are inserted in different
orders. -/
theorem fingerprint_determinism_witness :
    (jwf (.obj [("b", .num 2), ("a", .obj [("y", .num 1), ("x", .num 0)])]) =
        true ∧
     jwf (.obj [("a", .obj [("x", .num 0), ("y", .num 1)]), ("b", .num 2)]) =
        true ∧
     deep_equal
       (.obj [("b", .num 2), ("a", .obj [("y", .num 1), ("x", .num 0)])])
       (.obj [("a", .obj [("x", .num 0), ("y", .num 1)]), ("b", .num 2)]) =
        true) ∧
    calculate_json_fingerprint id
        [("b", .num 2), ("a", .obj [("y", .num 1), ("x", .num 0)])] =
      calculate_json_fingerprint id
        [("a", .obj [("x", .num 0), ("y", .num 1)]), ("b", .num 2)] := by
  have h1 : jwf (.obj [("b", .num 2),
      ("a", .obj [("y", .num 1), ("x", .num 0)])]) = true := by
    simp [jwf, jwfObj, jkeys]
  have h2 : jwf (.obj [("a", .obj [("x", .num 0), ("y", .num 1)]),
      ("b", .num 2)]) = true := by
    simp [jwf, jwfObj, jkeys]
  have hde : deep_equal
      (.obj [("b", .num 2), ("a", .obj [("y", .num 1), ("x", .num 0)])])
      (.obj [("a", .obj [("x", .num 0), ("y", .num 1)]), ("b", .num 2)]) =
      true := by
    simp [deep_equal, deep_equal_keys, jkeys, jlookup]
    decide
  exact ⟨⟨h1, h2, hde⟩,
    (fingerprint_determinism id _ _).2 h1 h2 hde⟩

/-! ## `BatchProcessor` (src/batch_processor.py)

`process_batch_sequential` is embedded with: an explicit `Nat` clock for
`datetime.now()` (`fmt` renders the strftime timestamp used in job ids), a
processor function returning `Except` (an `error` is a raised exception),
and an optional progress callback threading an observer state `σ` that may
itself raise; a callback that raises leaves its observer state unchanged.
`create_jobs` returns `none` where the Python raises (a non-dict
`"metadata"` value has no `.get`). -/

/-- Job state machine (src/batch_processor.py 22–27). -/
inductive JobStatus where
  | pending
  | in_progress
  | completed
  | failed
deriving DecidableEq

/-- `BatchJob` (src/batch_processor.py 30–51); `ρ` is the processor's
result type. -/
structure BatchJob (ρ : Type) where
  job_id : String
  region_id : Json
  region_json : List (String × Json)
  status : JobStatus := .pending
  result : Option ρ := none
  error : Option String := none
  started_at : Option Nat := none
  completed_at : Option Nat := none

/-- `BatchResult` (src/batch_processor.py 54–81). -/
structure BatchResult (ρ : Type) where
  total_jobs : Nat
  completed : Nat
  failed : Nat
  jobs : List (BatchJob ρ)
  started_at : Option Nat := none
  completed_at : Option Nat := none

/-- `region_json.get("metadata", {}).get("region_id", f"region_{idx}")`
(src/batch_processor.py line 121); `none` where the Python raises (a
non-dict metadata value has no `.get`). -/
def regionIdOf (idx : Nat) (rj : List (String × Json)) : Option Json :=
  match jlookup rj "metadata" with
  | some (.obj md) => some (jget md "region_id" (.str ("region_" ++ toString idx)))
  | some _ => none
  | none => some (.str ("region_" ++ toString idx))

/-- Simplified Python `str()` used only to build `job_id` (no claim
depends on job ids): strings verbatim, ints in decimal, `None`/booleans in
Python style, containers via the JSON serializer. -/
def pyStr : Json → String
  | .str s => s
  | .num n => toString n
  | .null => "None"
  | .bool b => cond b "True" "False"
  | j => dumps j

/-- `BatchProcessor.create_jobs` (src/batch_processor.py 105–133): one
`BatchJob` per region JSON, in input order, starting as `PENDING`. -/
def create_jobs {ρ : Type} (fmt : Nat → String) :
    List (List (String × Json)) → Nat → Nat →
    Option (List (BatchJob ρ) × Nat)
  | [], _, clock => some ([], clock)
  | rj :: rest, idx, clock =>
    match regionIdOf idx rj with
    | none => none
    | some rid =>
      match create_jobs fmt rest (idx + 1) (clock + 1) with
      | none => none
      | some (jobs, clock') =>
        some ({ job_id := "job_" ++ pyStr rid ++ "_" ++ fmt clock,
                region_id := rid, region_json := rj } :: jobs, clock')

/-- `if progress_callback: progress_callback(job)` (src/batch_processor.py
175–176): fire the optional callback on the observer state; its raise is
an `error`. -/
def fireCallback {ρ σ : Type} (cb : Option (BatchJob ρ → σ → Except String σ))
    (job : BatchJob ρ) (s : σ) : Except String σ :=
  match cb with
  | some f => f job s
  | none => .ok s

/-- Lines 172–173 of src/batch_processor.py: transition the job from
`PENDING` to `IN_PROGRESS` and stamp `started_at`. -/
def startJob {ρ : Type} (job : BatchJob ρ) (clock : Nat) : BatchJob ρ :=
  { job with status := .in_progress, started_at := some clock }

/-- The `try`/`except` body of the sequential loop
(src/batch_processor.py 167–199) for one job: set `IN_PROGRESS` and
`started_at`, fire the callback, run the processor; on success mark
`COMPLETED` and store the result, on any raise (callback or processor)
mark `FAILED` and record the message.  Returns the final job, the observer
state, the advanced clock, and whether the job succeeded. -/
def runJob {ρ σ : Type} (proc : List (String × Json) → Except String ρ)
    (cb : Option (BatchJob ρ → σ → Except String σ))
    (job : BatchJob ρ) (s : σ) (clock : Nat) :
    BatchJob ρ × σ × Nat × Bool :=
  match fireCallback cb (startJob job clock) s with
  | .error e =>
      ({ startJob job clock with
          status := .failed
          error := some e
          completed_at := some (clock + 1) }, s, clock + 2, false)
  | .ok s1 =>
    match proc (startJob job clock).region_json with
    | .ok res =>
        ({ startJob job clock with
            status := .completed
            result := some res
            completed_at := some (clock + 1) }, s1, clock + 2, true)
    | .error e =>
        ({ startJob job clock with
            status := .failed
            error := some e
            completed_at := some (clock + 1) }, s1, clock + 2, false)

/-- The sequential loop over all jobs (src/batch_processor.py 167–199):
every job is processed; counters record successes and failures. -/
def runJobs {ρ σ : Type} (proc : List (String × Json) → Except String ρ)
    (cb : Option (BatchJob ρ → σ → Except String σ)) :
    List (BatchJob ρ) → σ → Nat →
    List (BatchJob ρ) × Nat × Nat × σ × Nat
  | [], s, clock => ([], 0, 0, s, clock)
  | j :: rest, s, clock =>
    match runJob proc cb j s clock with
    | (j', s', clock', ok) =>
      match runJobs proc cb rest s' clock' with
      | (rest', c, f, s'', clock'') =>
        (j' :: rest', (if ok then c + 1 else c), (if ok then f else f + 1),
         s'', clock'')

/-- `BatchProcessor.process_batch_sequential`
(src/batch_processor.py 135–204). -/
def process_batch_sequential {ρ σ : Type} (fmt : Nat → String)
    (region_jsons : List (List (String × Json)))
    (proc : List (String × Json) → Except String ρ)
    (cb : Option (BatchJob ρ → σ → Except String σ))
    (s0 : σ) (clock0 : Nat) : Option (BatchResult ρ × σ × Nat) :=
  match create_jobs fmt region_jsons 0 clock0 with
  | none => none
  | some (jobs, clock1) =>
    match runJobs proc cb jobs s0 (clock1 + 1) with
    | (jobs', c, f, s', clock2) =>
      some ({ total_jobs := jobs.length, completed := c, failed := f,
              jobs := jobs', started_at := some clock1,
              completed_at := some clock2 }, s', clock2 + 1)

/-- `Except.ok`-ness of a processor call (whether the job raises). -/
def isOkE {ρ : Type} : Except String ρ → Bool
  | .ok _ => true
  | .error _ => false

theorem runJob_spec {ρ σ : Type} (proc : List (String × Json) → Except String ρ)
    (cb : Option (BatchJob ρ → σ → Except String σ)) (job : BatchJob ρ)
    (s : σ) (clock : Nat) (j' : BatchJob ρ) (s' : σ) (clock' : Nat) (ok : Bool)
    (h : runJob proc cb job s clock = (j', s', clock', ok)) :
    j'.region_json = job.region_json ∧ j'.region_id = job.region_id ∧
    (j'.status = .completed ∨ j'.status = .failed) ∧
    j'.completed_at.isSome = true ∧ j'.started_at.isSome = true := by
  unfold runJob at h
  split at h
  · cases h
    simp [startJob]
  · split at h <;> (cases h; simp [startJob])

theorem runJobs_forall₂ {ρ σ : Type} (proc : List (String × Json) → Except String ρ)
    (cb : Option (BatchJob ρ → σ → Except String σ)) :
    ∀ (jobs : List (BatchJob ρ)) (s : σ) (clock : Nat),
    List.Forall₂ (fun j j' => j'.region_json = j.region_json ∧
      j'.region_id = j.region_id ∧
      (j'.status = JobStatus.completed ∨ j'.status = JobStatus.failed) ∧
      j'.completed_at.isSome = true ∧ j'.started_at.isSome = true)
      jobs (runJobs proc cb jobs s clock).1 := by
  intro jobs
  induction jobs with
  | nil => intro s clock; exact List.Forall₂.nil
  | cons j rest ih =>
    intro s clock
    rcases hrj : runJob proc cb j s clock with ⟨j', s', clock', ok⟩
    rcases hrest : runJobs proc cb rest s' clock' with ⟨rest', c, f, s'', ck⟩
    simp only [runJobs, hrj, hrest]
    constructor
    · exact runJob_spec proc cb j s clock j' s' clock' ok hrj
    · have := ih s' clock'
      rw [hrest] at this
      exact this

theorem runJobs_counts_sum {ρ σ : Type} (proc : List (String × Json) → Except String ρ)
    (cb : Option (BatchJob ρ → σ → Except String σ)) :
    ∀ (jobs : List (BatchJob ρ)) (s : σ) (clock : Nat),
    (runJobs proc cb jobs s clock).2.1 + (runJobs proc cb jobs s clock).2.2.1 =
      jobs.length := by
  intro jobs
  induction jobs with
  | nil => intro s clock; rfl
  | cons j rest ih =>
    intro s clock
    rcases hrj : runJob proc cb j s clock with ⟨j', s', clock', ok⟩
    rcases hrest : runJobs proc cb rest s' clock' with ⟨rest', c, f, s'', ck⟩
    have := ih s' clock'
    rw [hrest] at this
    simp only [runJobs, hrj, hrest]
    cases ok <;> simp at this ⊢ <;> omega

theorem runJobs_counts_none {ρ σ : Type}
    (proc : List (String × Json) → Except String ρ) :
    ∀ (jobs : List (BatchJob ρ)) (s : σ) (clock : Nat),
    (runJobs proc (none : Option (BatchJob ρ → σ → Except String σ))
        jobs s clock).2.1 =
      jobs.countP (fun j => isOkE (proc j.region_json)) ∧
    (runJobs proc (none : Option (BatchJob ρ → σ → Except String σ))
        jobs s clock).2.2.1 =
      jobs.countP (fun j => !isOkE (proc j.region_json)) := by
  intro jobs
  induction jobs with
  | nil => intro s clock; exact ⟨rfl, rfl⟩
  | cons j rest ih =>
    intro s clock
    rcases hrest : runJobs proc
        (none : Option (BatchJob ρ → σ → Except String σ)) rest s (clock + 2)
      with ⟨rest', c, f, s'', ck⟩
    have hih := ih s (clock + 2)
    rw [hrest] at hih
    have hc : c = List.countP (fun j => isOkE (proc j.region_json)) rest :=
      hih.1
    have hf : f = List.countP (fun j => !isOkE (proc j.region_json)) rest :=
      hih.2
    subst hc
    subst hf
    cases hp : proc j.region_json with
    | ok r =>
      simp only [runJobs, runJob, startJob, fireCallback, hp, hrest,
        List.countP_cons]
      simp [isOkE, hp]
    | error e =>
      simp only [runJobs, runJob, startJob, fireCallback, hp, hrest,
        List.countP_cons]
      simp [isOkE, hp]

theorem create_jobs_forall₂ {ρ : Type} (fmt : Nat → String) :
    ∀ (rjs : List (List (String × Json))) (idx clock : Nat)
      (jobs : List (BatchJob ρ)) (clock' : Nat),
    create_jobs fmt rjs idx clock = some (jobs, clock') →
    List.Forall₂ (fun rj (j : BatchJob ρ) =>
      j.region_json = rj ∧ j.status = .pending) rjs jobs := by
  intro rjs
  induction rjs with
  | nil =>
    intro idx clock jobs clock' h
    cases h
    exact List.Forall₂.nil
  | cons rj rest ih =>
    intro idx clock jobs clock' h
    unfold create_jobs at h
    split at h
    · cases h
    case h_2 rid heq =>
      split at h
      · cases h
      case h_2 jobs0 ck0 heq2 =>
        cases h
        exact List.Forall₂.cons ⟨rfl, rfl⟩ (ih _ _ _ _ heq2)

theorem countP_eq_of_forall₂_region {ρ : Type}
    {rjs : List (List (String × Json))} {jobs : List (BatchJob ρ)}
    (h : List.Forall₂ (fun rj (j : BatchJob ρ) =>
      j.region_json = rj ∧ j.status = .pending) rjs jobs)
    (q : List (String × Json) → Bool) :
    jobs.countP (fun j => q j.region_json) = rjs.countP q := by
  induction h with
  | nil => rfl
  | cons h1 h2 ih => simp [List.countP_cons, h1.1, ih]

theorem map_eq_of_forall₂ {α β γ : Type} {R : α → β → Prop}
    {l₁ : List α} {l₂ : List β} (f : α → γ) (g : β → γ)
    (h : List.Forall₂ R l₁ l₂) (hfg : ∀ a b, R a b → f a = g b) :
    l₁.map f = l₂.map g := by
  induction h with
  | nil => rfl
  | cons h1 h2 ih => simp [hfg _ _ h1, ih]

/-- With the logging callback, the observer trace records exactly one
invocation per job, each with status `IN_PROGRESS`, in input order. -/
theorem runJobs_trace {ρ : Type} (proc : List (String × Json) → Except String ρ) :
    ∀ (jobs : List (BatchJob ρ)) (s : List (Json × JobStatus)) (clock : Nat),
    (runJobs proc (some (fun j s => Except.ok (s ++ [(j.region_id, j.status)])))
        jobs s clock).2.2.2.1 =
      s ++ jobs.map (fun j => (j.region_id, JobStatus.in_progress)) := by
  intro jobs
  induction jobs with
  | nil => intro s clock; simp [runJobs]
  | cons j rest ih =>
    intro s clock
    cases hp : proc j.region_json with
    | ok r =>
      simp only [runJobs, runJob, startJob, fireCallback, hp]
      rw [ih]
      simp
    | error e =>
      simp only [runJobs, runJob, startJob, fireCallback, hp]
      rw [ih]
      simp

/-- With a callback that raises exactly on the regions satisfying `p`,
every such job is marked `FAILED` with the callback's message, the others
are decided by the processor, and the failure counter counts both kinds of
raise. -/
theorem runJobs_raise {ρ : Type} (proc : List (String × Json) → Except String ρ)
    (p : Json → Bool) (msg : String) :
    ∀ (jobs : List (BatchJob ρ)) (clock : Nat),
    (runJobs proc (some (fun j _ =>
        if p j.region_id then Except.error msg else Except.ok ()))
        jobs () clock).2.2.1 =
      jobs.countP (fun j => p j.region_id || !isOkE (proc j.region_json)) ∧
    List.Forall₂ (fun j j' => p j.region_id = true →
        j'.status = JobStatus.failed ∧ j'.error = some msg)
      jobs (runJobs proc (some (fun j _ =>
        if p j.region_id then Except.error msg else Except.ok ()))
        jobs () clock).1 := by
  intro jobs
  induction jobs with
  | nil => intro clock; exact ⟨rfl, List.Forall₂.nil⟩
  | cons j rest ih =>
    intro clock
    have hih := ih (clock + 2)
    cases hpj : p j.region_id with
    | true =>
      simp only [runJobs, runJob, startJob, fireCallback, hpj, if_pos rfl,
        List.countP_cons]
      constructor
      · simp [hpj, hih.1]
      · exact List.Forall₂.cons (fun _ => ⟨rfl, rfl⟩) hih.2
    | false =>
      cases hp : proc j.region_json with
      | ok r =>
        simp only [runJobs, runJob, startJob, fireCallback, hpj, hp,
          List.countP_cons]
        constructor
        · simp [hpj, hp, isOkE, hih.1]
        · exact List.Forall₂.cons (fun hcon => by rw [hpj] at hcon; cases hcon)
            hih.2
      | error e =>
        simp only [runJobs, runJob, startJob, fireCallback, hpj, hp,
          List.countP_cons]
        constructor
        · simp [hpj, hp, isOkE, hih.1]
        · exact List.Forall₂.cons (fun hcon => by rw [hpj] at hcon; cases hcon)
            hih.2

theorem countP_transfer {α β : Type} {R : α → β → Prop}
    {l₁ : List α} {l₂ : List β} (q1 : α → Bool) (q2 : β → Bool)
    (h : List.Forall₂ R l₁ l₂) (hq : ∀ a b, R a b → q1 a = q2 b) :
    l₁.countP q1 = l₂.countP q2 := by
  induction h with
  | nil => rfl
  | cons h1 h2 ih => simp [List.countP_cons, hq _ _ h1, ih]

theorem forall₂_and {α β : Type} {R S : α → β → Prop} :
    ∀ {l₁ : List α} {l₂ : List β}, List.Forall₂ R l₁ l₂ →
    List.Forall₂ S l₁ l₂ → List.Forall₂ (fun a b => R a b ∧ S a b) l₁ l₂
  | _, _, .nil, .nil => .nil
  | _, _, .cons h1 t1, .cons h2 t2 => .cons ⟨h1, h2⟩ (forall₂_and t1 t2)

/-- C3 (Batch isolation and full accounting): a sequential batch over N
requests accounts for every request — `total_jobs = N`,
`completed + failed = N`, `failed` is exactly the number of requests whose
processing raises, and `completed = N - failed`; a raising job never stops
the processing of the remaining jobs. -/
theorem batch_isolation {ρ σ : Type} (fmt : Nat → String)
    (region_jsons : List (List (String × Json)))
    (proc : List (String × Json) → Except String ρ)
    (s0 : σ) (clock0 : Nat) (res : BatchResult ρ) (s' : σ) (ck : Nat)
    (h : process_batch_sequential fmt region_jsons proc
      (none : Option (BatchJob ρ → σ → Except String σ)) s0 clock0 =
      some (res, s', ck)) :
    res.total_jobs = region_jsons.length ∧
    res.completed + res.failed = region_jsons.length ∧
    res.failed = region_jsons.countP (fun rj => !isOkE (proc rj)) ∧
    res.completed = region_jsons.length -
      region_jsons.countP (fun rj => !isOkE (proc rj)) := by
  unfold process_batch_sequential at h
  split at h
  · cases h
  case h_2 jobs clock1 heq =>
    rcases hrun : runJobs proc
        (none : Option (BatchJob ρ → σ → Except String σ)) jobs s0 (clock1 + 1)
      with ⟨jobs', c, f, s'', ck2⟩
    rw [hrun] at h
    cases h
    have hf2 := create_jobs_forall₂ fmt region_jsons 0 clock0 jobs clock1 heq
    have hlen : region_jsons.length = jobs.length := hf2.length_eq
    have hcounts := runJobs_counts_none proc jobs s0 (clock1 + 1)
    rw [hrun] at hcounts
    have hc : c = jobs.countP (fun j => isOkE (proc j.region_json)) :=
      hcounts.1
    have hfc : f = jobs.countP (fun j => !isOkE (proc j.region_json)) :=
      hcounts.2
    have hsum0 := runJobs_counts_sum proc
      (none : Option (BatchJob ρ → σ → Except String σ)) jobs s0 (clock1 + 1)
    rw [hrun] at hsum0
    have hsum : c + f = jobs.length := hsum0
    have htrans : jobs.countP (fun j => !isOkE (proc j.region_json)) =
        region_jsons.countP (fun rj => !isOkE (proc rj)) := by
      have := countP_eq_of_forall₂_region hf2 (fun rj => !isOkE (proc rj))
      exact this
    refine ⟨hlen.symm, ?_, ?_, ?_⟩
    · show c + f = region_jsons.length
      omega
    · show f = _
      rw [hfc, htrans]
    · show c = _
      have hf3 : f = region_jsons.countP (fun rj => !isOkE (proc rj)) :=
        hfc.trans htrans
      omega

/-- Example batch: two requests, the second carrying a `"fail"` marker. -/
def exRequests : List (List (String × Json)) :=
  [[("metadata", Json.obj [("region_id", Json.str "r1")])],
   [("metadata", Json.obj [("region_id", Json.str "r2")]), ("fail", .bool true)]]

/-- Example processor: raises exactly on requests with a `"fail"` key. -/
def exProc (rj : List (String × Json)) : Except String Nat :=
  if (jlookup rj "fail").isSome then Except.error "boom" else Except.ok 0

/-- The `BatchResult` of running `exProc` sequentially over `exRequests`. -/
def exBatchResult : BatchResult Nat :=
  { total_jobs := 2, completed := 1, failed := 1,
    jobs := [
      { job_id := "job_r1_ts", region_id := Json.str "r1",
        region_json := [("metadata", Json.obj [("region_id", Json.str "r1")])],
        status := .completed, result := some 0, error := none,
        started_at := some 3, completed_at := some 4 },
      { job_id := "job_r2_ts", region_id := Json.str "r2",
        region_json := [("metadata", Json.obj [("region_id", Json.str "r2")]),
          ("fail", .bool true)],
        status := .failed, result := none, error := some "boom",
        started_at := some 5, completed_at := some 6 }],
    started_at := some 2, completed_at := some 7 }

/-- Witness for `batch_isolation`: two requests, the second engineered to
raise — `total_jobs = 2`, `completed = 1`, `failed = 1`. -/
theorem batch_isolation_witness :
    process_batch_sequential (fun _ => "ts") exRequests exProc
      (none : Option (BatchJob Nat → Unit → Except String Unit)) () 0 =
      some (exBatchResult, (), 8) ∧
    (exBatchResult.total_jobs = exRequests.length ∧
     exBatchResult.completed + exBatchResult.failed = exRequests.length ∧
     exBatchResult.failed = exRequests.countP (fun rj => !isOkE (exProc rj)) ∧
     exBatchResult.completed = exRequests.length -
       exRequests.countP (fun rj => !isOkE (exProc rj))) := by
  have h1 : process_batch_sequential (fun _ => "ts") exRequests exProc
      (none : Option (BatchJob Nat → Unit → Except String Unit)) () 0 =
      some (exBatchResult, (), 8) := rfl
  exact ⟨h1, batch_isolation _ _ _ _ _ _ _ _ h1⟩

/-- C10 (Terminal jobs in input order): when `process_batch_sequential`
returns, `result.jobs` has exactly one job per submitted request, in the
same order as the input list (the i-th job carries the i-th request), and
every job's status is `COMPLETED` or `FAILED` — never `PENDING` or
`IN_PROGRESS` — with `completed_at` (and `started_at`) set. -/
theorem jobs_terminal_in_order {ρ σ : Type} (fmt : Nat → String)
    (region_jsons : List (List (String × Json)))
    (proc : List (String × Json) → Except String ρ)
    (cb : Option (BatchJob ρ → σ → Except String σ))
    (s0 : σ) (clock0 : Nat) (res : BatchResult ρ) (s' : σ) (ck : Nat)
    (h : process_batch_sequential fmt region_jsons proc cb s0 clock0 =
      some (res, s', ck)) :
    res.jobs.length = region_jsons.length ∧
    res.total_jobs = region_jsons.length ∧
    ∀ i (hi : i < res.jobs.length) (hi' : i < region_jsons.length),
      (res.jobs.get ⟨i, hi⟩).region_json = region_jsons.get ⟨i, hi'⟩ ∧
      ((res.jobs.get ⟨i, hi⟩).status = JobStatus.completed ∨
        (res.jobs.get ⟨i, hi⟩).status = JobStatus.failed) ∧
      (res.jobs.get ⟨i, hi⟩).completed_at.isSome = true ∧
      (res.jobs.get ⟨i, hi⟩).started_at.isSome = true := by
  unfold process_batch_sequential at h
  split at h
  · cases h
  case h_2 jobs clock1 heq =>
    rcases hrun : runJobs proc cb jobs s0 (clock1 + 1)
      with ⟨jobs', c, f, s'', ck2⟩
    rw [hrun] at h
    cases h
    have hf2 := create_jobs_forall₂ fmt region_jsons 0 clock0 jobs clock1 heq
    have hrf := runJobs_forall₂ proc cb jobs s0 (clock1 + 1)
    rw [hrun] at hrf
    have hlen1 : region_jsons.length = jobs.length := hf2.length_eq
    have hlen2 : jobs.length = jobs'.length := hrf.length_eq
    refine ⟨by simp [hlen1, hlen2], by simp [hlen1], ?_⟩
    intro i hi hi'
    have hij : i < jobs.length := by
      simp only at hi
      omega
    have h1 := hf2.get hi' hij
    have h2 := hrf.get hij (by simpa using hi)
    exact ⟨h2.1.trans h1.1, h2.2.2.1, h2.2.2.2.1, h2.2.2.2.2⟩

/-- Witness for `jobs_terminal_in_order`: the two-request example batch. -/
theorem jobs_terminal_in_order_witness :
    process_batch_sequential (fun _ => "ts") exRequests exProc
      (none : Option (BatchJob Nat → Unit → Except String Unit)) () 0 =
      some (exBatchResult, (), 8) ∧
    (exBatchResult.jobs.length = exRequests.length ∧
     exBatchResult.total_jobs = exRequests.length ∧
     ∀ i (hi : i < exBatchResult.jobs.length) (hi' : i < exRequests.length),
      (exBatchResult.jobs.get ⟨i, hi⟩).region_json = exRequests.get ⟨i, hi'⟩ ∧
      ((exBatchResult.jobs.get ⟨i, hi⟩).status = JobStatus.completed ∨
        (exBatchResult.jobs.get ⟨i, hi⟩).status = JobStatus.failed) ∧
      (exBatchResult.jobs.get ⟨i, hi⟩).completed_at.isSome = true ∧
      (exBatchResult.jobs.get ⟨i, hi⟩).started_at.isSome = true) := by
  have h1 : process_batch_sequential (fun _ => "ts") exRequests exProc
      (none : Option (BatchJob Nat → Unit → Except String Unit)) () 0 =
      some (exBatchResult, (), 8) := rfl
  exact ⟨h1, jobs_terminal_in_order _ _ _ _ _ _ _ _ _ h1⟩

/-- C4 counterexample: one request whose processing succeeds, run once
with an always-raising progress callback and once with no callback.  With
the raising callback the job ends `FAILED` (`failed = 1`, `completed = 0`)
although the processor succeeded, while without a callback it ends
`COMPLETED` — so a callback exception does change the outcome of the job
it was invoked for, contradicting the claim (the callback is also invoked
only at the `PENDING → IN_PROGRESS` transition, not on every transition;
see `progress_callback_semantics`). -/
theorem progress_callback_counterexample :
    ((process_batch_sequential (fun _ => "ts")
        [[("metadata", Json.obj [("region_id", Json.str "r1")])]]
        (fun _ => Except.ok (0 : Nat))
        (some (fun _ _ => Except.error "boom") :
          Option (BatchJob Nat → Unit → Except String Unit))
        () 0).map (fun t => (t.1.completed, t.1.failed,
          t.1.jobs.map (fun j => j.status)))) =
      some (0, 1, [JobStatus.failed]) ∧
    ((process_batch_sequential (fun _ => "ts")
        [[("metadata", Json.obj [("region_id", Json.str "r1")])]]
        (fun _ => Except.ok (0 : Nat))
        (none : Option (BatchJob Nat → Unit → Except String Unit))
        () 0).map (fun t => (t.1.completed, t.1.failed,
          t.1.jobs.map (fun j => j.status)))) =
      some (1, 0, [JobStatus.completed]) :=
  ⟨rfl, rfl⟩

/-- C4 amended (Progress callback semantics): during sequential batch
execution the progress callback is invoked exactly once per job — at the
`PENDING → IN_PROGRESS` transition, in input order — not on every
transition; and an exception raised by the callback marks that job
`FAILED` with the callback's message (it is counted in `failed`, the
processor is not called for it), while the remaining jobs are still
processed and fully accounted for. -/
theorem progress_callback_semantics {ρ : Type} (fmt : Nat → String)
    (region_jsons : List (List (String × Json)))
    (proc : List (String × Json) → Except String ρ)
    (trace0 : List (Json × JobStatus)) (clock0 : Nat)
    (p : Json → Bool) (msg : String) :
    (∀ res tr ck,
      process_batch_sequential fmt region_jsons proc
        (some (fun j s => Except.ok (s ++ [(j.region_id, j.status)])))
        trace0 clock0 = some (res, tr, ck) →
      tr = trace0 ++
        res.jobs.map (fun j => (j.region_id, JobStatus.in_progress))) ∧
    (∀ res u ck,
      process_batch_sequential fmt region_jsons proc
        (some (fun j _ => if p j.region_id then Except.error msg
          else Except.ok ())) () clock0 = some (res, u, ck) →
      res.completed + res.failed = res.total_jobs ∧
      res.failed = res.jobs.countP
        (fun j => p j.region_id || !isOkE (proc j.region_json)) ∧
      ∀ j' ∈ res.jobs, p j'.region_id = true →
        j'.status = JobStatus.failed ∧ j'.error = some msg) := by
  constructor
  · intro res tr ck h
    unfold process_batch_sequential at h
    split at h
    · cases h
    case h_2 jobs clock1 heq =>
      rcases hrun : runJobs proc
          (some (fun j s => Except.ok (s ++ [(j.region_id, j.status)])))
          jobs trace0 (clock1 + 1) with ⟨jobs', c, f, s'', ck2⟩
      rw [hrun] at h
      cases h
      have htr := runJobs_trace proc jobs trace0 (clock1 + 1)
      rw [hrun] at htr
      have hrf := runJobs_forall₂ proc
        (some (fun j s => Except.ok (s ++ [(j.region_id, j.status)])))
        jobs trace0 (clock1 + 1)
      rw [hrun] at hrf
      have hmap : jobs.map (fun j => (j.region_id, JobStatus.in_progress)) =
          jobs'.map (fun j => (j.region_id, JobStatus.in_progress)) :=
        map_eq_of_forall₂ _ _ hrf (fun a b hab => by rw [hab.2.1])
      exact htr.trans (by rw [hmap])
  · intro res u ck h
    unfold process_batch_sequential at h
    split at h
    · cases h
    case h_2 jobs clock1 heq =>
      rcases hrun : runJobs proc
          (some (fun j _ => if p j.region_id then Except.error msg
            else Except.ok ())) jobs () (clock1 + 1)
        with ⟨jobs', c, f, s'', ck2⟩
      rw [hrun] at h
      cases h
      have hsum0 := runJobs_counts_sum proc
        (some (fun j _ => if p j.region_id then Except.error msg
          else Except.ok ())) jobs () (clock1 + 1)
      rw [hrun] at hsum0
      have hr := runJobs_raise proc p msg jobs (clock1 + 1)
      rw [hrun] at hr
      have hrf := runJobs_forall₂ proc
        (some (fun j _ => if p j.region_id then Except.error msg
          else Except.ok ())) jobs () (clock1 + 1)
      rw [hrun] at hrf
      refine ⟨hsum0, ?_, ?_⟩
      · have hcount : jobs.countP
            (fun j => p j.region_id || !isOkE (proc j.region_json)) =
            jobs'.countP
            (fun j => p j.region_id || !isOkE (proc j.region_json)) :=
          countP_transfer _ _ hrf (fun a b hab => by rw [hab.1, hab.2.1])
        exact hr.1.trans hcount
      · intro j' hj' hpj'
        obtain ⟨⟨i, hi⟩, hget⟩ := List.mem_iff_get.mp hj'
        have hij : i < jobs.length := by
          have hlen : jobs.length = jobs'.length := hrf.length_eq
          have hi2 : i < jobs'.length := hi
          omega
        have hcomb := (forall₂_and hrf hr.2).get hij hi
        have hid : (jobs.get ⟨i, hij⟩).region_id = j'.region_id := by
          rw [← hget]
          exact hcomb.1.2.1.symm
        have hp2 : p (jobs.get ⟨i, hij⟩).region_id = true := by
          rw [hid, hpj']
        have := hcomb.2 hp2
        rw [hget] at this
        exact this

/-- One-request batch used to exercise the progress callback. -/
def cbRequests : List (List (String × Json)) :=
  [[("metadata", Json.obj [("region_id", Json.str "r1")])]]

/-- Result of the one-request batch under the logging callback. -/
def cbLogResult : BatchResult Nat :=
  { total_jobs := 1, completed := 1, failed := 0,
    jobs := [{ job_id := "job_r1_ts", region_id := .str "r1",
               region_json := [("metadata",
                 Json.obj [("region_id", Json.str "r1")])],
               status := .completed, result := some 0, error := none,
               started_at := some 2, completed_at := some 3 }],
    started_at := some 1, completed_at := some 4 }

/-- Result of the one-request batch under an always-raising callback. -/
def cbRaiseResult : BatchResult Nat :=
  { total_jobs := 1, completed := 0, failed := 1,
    jobs := [{ job_id := "job_r1_ts", region_id := .str "r1",
               region_json := [("metadata",
                 Json.obj [("region_id", Json.str "r1")])],
               status := .failed, result := none, error := some "boom",
               started_at := some 2, completed_at := some 3 }],
    started_at := some 1, completed_at := some 4 }

/-- Witness for `progress_callback_semantics`: the one-request batch under
the logging and the always-raising callback. -/
theorem progress_callback_semantics_witness :
    (process_batch_sequential (fun _ => "ts") cbRequests
        (fun _ => Except.ok (0 : Nat))
        (some (fun j s => Except.ok (s ++ [(j.region_id, j.status)]))) [] 0 =
      some (cbLogResult, [(Json.str "r1", JobStatus.in_progress)], 5) ∧
     process_batch_sequential (fun _ => "ts") cbRequests
        (fun _ => Except.ok (0 : Nat))
        (some (fun j _ => if (fun _ : Json => true) j.region_id
          then Except.error "boom" else Except.ok ())) () 0 =
      some (cbRaiseResult, (), 5)) ∧
    ([(Json.str "r1", JobStatus.in_progress)] = [] ++
      cbLogResult.jobs.map (fun j => (j.region_id, JobStatus.in_progress)) ∧
     (cbRaiseResult.completed + cbRaiseResult.failed =
        cbRaiseResult.total_jobs ∧
      cbRaiseResult.failed = cbRaiseResult.jobs.countP
        (fun j => (fun _ : Json => true) j.region_id ||
          !isOkE ((fun _ => Except.ok (0 : Nat)) j.region_json)) ∧
      ∀ j' ∈ cbRaiseResult.jobs, (fun _ : Json => true) j'.region_id = true →
        j'.status = JobStatus.failed ∧ j'.error = some "boom")) := by
  have h1 : process_batch_sequential (fun _ => "ts") cbRequests
      (fun _ => Except.ok (0 : Nat))
      (some (fun j s => Except.ok (s ++ [(j.region_id, j.status)]))) [] 0 =
      some (cbLogResult, [(Json.str "r1", JobStatus.in_progress)], 5) := rfl
  have h2 : process_batch_sequential (fun _ => "ts") cbRequests
      (fun _ => Except.ok (0 : Nat))
      (some (fun j _ => if (fun _ : Json => true) j.region_id
        then Except.error "boom" else Except.ok ())) () 0 =
      some (cbRaiseResult, (), 5) := rfl
  refine ⟨⟨h1, h2⟩, ?_, ?_⟩
  · exact (progress_callback_semantics (fun _ => "ts") cbRequests
      (fun _ => Except.ok (0 : Nat)) [] 0 (fun _ => true) "boom").1 _ _ _ h1
  · exact (progress_callback_semantics (fun _ => "ts") cbRequests
      (fun _ => Except.ok (0 : Nat)) [] 0 (fun _ => true) "boom").2 _ _ _ h2

/-! ## `OutputManager.calculate_consistency_score`
(src/output_manager.py 63–120)

Images are rectangular grids of 8-bit RGB pixels (`np.array(img.convert('RGB'))`);
float32 arithmetic is modelled by real arithmetic.  `cv2.resize` (Lanczos,
line 90–94) is an external library call, modelled as a parameter whose
output is again an 8-bit image of the requested size.  The per-pixel
difference magnitude is `sqrt(Σ_channel (a-b)²)`, normalized by
`sqrt(3·255²)` and averaged over all pixels (`np.mean`).  The
`except` fallback returning `-1.0` (line 120) is unreachable for the
well-formed nonempty inputs the theorems quantify over. -/

/-- An 8-bit RGB pixel. -/
abbrev Pixel : Type := ℕ × ℕ × ℕ

/-- An image: a list of pixel rows. -/
abbrev Image : Type := List (List Pixel)

/-- Number of columns (`shape[1]`): the length of the first row. -/
def imgWidth (img : Image) : ℕ :=
  match img with
  | [] => 0
  | r :: _ => r.length

/-- What `np.array(image.convert('RGB'))` guarantees: a rectangular grid
of channel values `≤ 255`. -/
def ImgWF (img : Image) : Prop :=
  (∀ r ∈ img, r.length = imgWidth img) ∧
  (∀ r ∈ img, ∀ p ∈ r, p.1 ≤ 255 ∧ p.2.1 ≤ 255 ∧ p.2.2 ≤ 255)

/-- `gen_array.shape == master_array.shape` for rectangular images. -/
def sameShape (a b : Image) : Prop :=
  a.length = b.length ∧ imgWidth a = imgWidth b

/-- `np.sqrt(np.sum(diff ** 2, axis=2))` for one pixel pair
(src/output_manager.py 99–102). -/
noncomputable def pixDist (p q : Pixel) : ℝ :=
  Real.sqrt (((p.1 : ℝ) - (q.1 : ℝ)) ^ 2 + ((p.2.1 : ℝ) - (q.2.1 : ℝ)) ^ 2 +
    ((p.2.2 : ℝ) - (q.2.2 : ℝ)) ^ 2)

/-- `max_diff = np.sqrt(3 * 255 ** 2)` (src/output_manager.py 105). -/
noncomputable def maxDiff : ℝ := Real.sqrt (3 * 255 ^ 2)

/-- Sum of per-pixel distance magnitudes over the (pointwise zipped)
pixel grids. -/
noncomputable def imgDistSum (a b : Image) : ℝ :=
  ((a.zip b).map (fun rr =>
    ((rr.1.zip rr.2).map (fun pq => pixDist pq.1 pq.2)).sum)).sum

/-- `OutputManager.calculate_consistency_score`
(src/output_manager.py 63–120), score component: resize the master if the
shapes differ, then the mean over all pixels of the normalized distance
magnitude (`np.mean(diff_magnitude / max_diff)`). -/
noncomputable def calculate_consistency_score
    (resize : ℕ → ℕ → Image → Image)
    (generated_image master_image : Image) : ℝ :=
  imgDistSum generated_image
    (if generated_image.length = master_image.length ∧
        imgWidth generated_image = imgWidth master_image
     then master_image
     else resize (imgWidth generated_image) generated_image.length
       master_image) / maxDiff /
    ((generated_image.length : ℝ) * (imgWidth generated_image : ℝ))

/-- A pure-black image. -/
def allBlack (img : Image) : Prop :=
  ∀ r ∈ img, ∀ p ∈ r, p = ((0 : ℕ), (0 : ℕ), (0 : ℕ))

/-- A pure-white image. -/
def allWhite (img : Image) : Prop :=
  ∀ r ∈ img, ∀ p ∈ r, p = ((255 : ℕ), (255 : ℕ), (255 : ℕ))

theorem pixDist_nonneg (p q : Pixel) : 0 ≤ pixDist p q := Real.sqrt_nonneg _

theorem maxDiff_pos : 0 < maxDiff := Real.sqrt_pos.mpr (by norm_num)

theorem pixDist_self (p : Pixel) : pixDist p p = 0 := by
  simp [pixDist]

theorem pixDist_le (p q : Pixel) (hp : p.1 ≤ 255 ∧ p.2.1 ≤ 255 ∧ p.2.2 ≤ 255)
    (hq : q.1 ≤ 255 ∧ q.2.1 ≤ 255 ∧ q.2.2 ≤ 255) :
    pixDist p q ≤ maxDiff := by
  refine Real.sqrt_le_sqrt ?_
  have b1 : ((p.1 : ℝ) - (q.1 : ℝ)) ^ 2 ≤ 255 ^ 2 := by
    have h1 : (p.1 : ℝ) ≤ 255 := by exact_mod_cast hp.1
    have h2 : (q.1 : ℝ) ≤ 255 := by exact_mod_cast hq.1
    have h3 : (0 : ℝ) ≤ p.1 := Nat.cast_nonneg _
    have h4 : (0 : ℝ) ≤ q.1 := Nat.cast_nonneg _
    nlinarith
  have b2 : ((p.2.1 : ℝ) - (q.2.1 : ℝ)) ^ 2 ≤ 255 ^ 2 := by
    have h1 : (p.2.1 : ℝ) ≤ 255 := by exact_mod_cast hp.2.1
    have h2 : (q.2.1 : ℝ) ≤ 255 := by exact_mod_cast hq.2.1
    have h3 : (0 : ℝ) ≤ p.2.1 := Nat.cast_nonneg _
    have h4 : (0 : ℝ) ≤ q.2.1 := Nat.cast_nonneg _
    nlinarith
  have b3 : ((p.2.2 : ℝ) - (q.2.2 : ℝ)) ^ 2 ≤ 255 ^ 2 := by
    have h1 : (p.2.2 : ℝ) ≤ 255 := by exact_mod_cast hp.2.2
    have h2 : (q.2.2 : ℝ) ≤ 255 := by exact_mod_cast hq.2.2
    have h3 : (0 : ℝ) ≤ p.2.2 := Nat.cast_nonneg _
    have h4 : (0 : ℝ) ≤ q.2.2 := Nat.cast_nonneg _
    nlinarith
  linarith

theorem pixDist_eq_zero_iff (p q : Pixel) : pixDist p q = 0 ↔ p = q := by
  constructor
  · intro h
    have hs : ((p.1 : ℝ) - (q.1 : ℝ)) ^ 2 + ((p.2.1 : ℝ) - (q.2.1 : ℝ)) ^ 2 +
        ((p.2.2 : ℝ) - (q.2.2 : ℝ)) ^ 2 = 0 := by
      have h0 : (0 : ℝ) ≤ ((p.1 : ℝ) - (q.1 : ℝ)) ^ 2 +
          ((p.2.1 : ℝ) - (q.2.1 : ℝ)) ^ 2 +
          ((p.2.2 : ℝ) - (q.2.2 : ℝ)) ^ 2 := by positivity
      have := (Real.sqrt_eq_zero h0).mp h
      linarith
    have s1 := sq_nonneg ((p.1 : ℝ) - (q.1 : ℝ))
    have s2 := sq_nonneg ((p.2.1 : ℝ) - (q.2.1 : ℝ))
    have s3 := sq_nonneg ((p.2.2 : ℝ) - (q.2.2 : ℝ))
    have e1 : (p.1 : ℝ) = q.1 := by nlinarith
    have e2 : (p.2.1 : ℝ) = q.2.1 := by nlinarith
    have e3 : (p.2.2 : ℝ) = q.2.2 := by nlinarith
    have n1 : p.1 = q.1 := by exact_mod_cast e1
    have n2 : p.2.1 = q.2.1 := by exact_mod_cast e2
    have n3 : p.2.2 = q.2.2 := by exact_mod_cast e3
    obtain ⟨a, b, c⟩ := p
    obtain ⟨x, y, z⟩ := q
    simp only at n1 n2 n3
    simp [n1, n2, n3]
  · rintro rfl
    exact pixDist_self p

theorem list_sum_eq_zero {l : List ℝ} (h0 : ∀ x ∈ l, 0 ≤ x)
    (h : l.sum = 0) : ∀ x ∈ l, x = 0 := by
  induction l with
  | nil => intro x hx; cases hx
  | cons a t ih =>
    have ha : 0 ≤ a := h0 a (List.mem_cons_self _ _)
    have ht : ∀ x ∈ t, 0 ≤ x := fun x hx => h0 x (List.mem_cons_of_mem _ hx)
    have hts : 0 ≤ t.sum := List.sum_nonneg ht
    have hsum : a + t.sum = 0 := by simpa using h
    have ha0 : a = 0 := by linarith
    have hts0 : t.sum = 0 := by linarith
    intro x hx
    rcases List.mem_cons.mp hx with rfl | hx
    · exact ha0
    · exact ih ht hts0 x hx

theorem list_sum_map_const {α : Type} (l : List α) (f : α → ℝ) (c : ℝ)
    (h : ∀ x ∈ l, f x = c) : (l.map f).sum = l.length * c := by
  induction l with
  | nil => simp
  | cons a t ih =>
    have := ih (fun x hx => h x (List.mem_cons_of_mem _ hx))
    simp [h a (List.mem_cons_self _ _), this]
    ring

theorem zip_eq_of_pointwise {α : Type} :
    ∀ (l1 l2 : List α), l1.length = l2.length →
    (∀ pq ∈ l1.zip l2, pq.1 = pq.2) → l1 = l2 := by
  intro l1
  induction l1 with
  | nil =>
    intro l2 hlen _
    cases l2 with
    | nil => rfl
    | cons b t2 => simp at hlen
  | cons a t1 ih =>
    intro l2 hlen hpq
    cases l2 with
    | nil => simp at hlen
    | cons b t2 =>
      have h1 : a = b := hpq (a, b) (by simp [List.zip_cons_cons])
      have h2 : t1 = t2 := ih t2 (by simpa using hlen)
        (fun pq hm => hpq pq (by simp [List.zip_cons_cons, hm]))
      rw [h1, h2]

theorem mem_zip_self {α : Type} : ∀ (l : List α), ∀ pq ∈ l.zip l, pq.1 = pq.2 := by
  intro l
  induction l with
  | nil => intro pq hm; cases hm
  | cons a t ih =>
    intro pq hm
    rcases List.mem_cons.mp (by simpa [List.zip_cons_cons] using hm)
      with rfl | hm2
    · rfl
    · exact ih pq hm2

theorem imgDistSum_nonneg (a b : Image) : 0 ≤ imgDistSum a b := by
  apply List.sum_nonneg
  intro x hx
  obtain ⟨rr, _, rfl⟩ := List.mem_map.mp hx
  apply List.sum_nonneg
  intro y hy
  obtain ⟨pq, _, rfl⟩ := List.mem_map.mp hy
  exact pixDist_nonneg _ _

theorem imgDistSum_le (a b : Image) (ha : ImgWF a) (hb : ImgWF b) :
    imgDistSum a b ≤ (a.length : ℝ) * (imgWidth a : ℝ) * maxDiff := by
  have hrow : ∀ x ∈ (a.zip b).map (fun rr =>
      ((rr.1.zip rr.2).map (fun pq => pixDist pq.1 pq.2)).sum),
      x ≤ (imgWidth a : ℝ) * maxDiff := by
    intro x hx
    obtain ⟨rr, hrr, rfl⟩ := List.mem_map.mp hx
    have h1 : rr.1 ∈ a := (List.of_mem_zip hrr).1
    have h2 : rr.2 ∈ b := (List.of_mem_zip hrr).2
    have hpx : ∀ y ∈ (rr.1.zip rr.2).map (fun pq => pixDist pq.1 pq.2),
        y ≤ maxDiff := by
      intro y hy
      obtain ⟨pq, hpq, rfl⟩ := List.mem_map.mp hy
      exact pixDist_le _ _ (ha.2 rr.1 h1 pq.1 (List.of_mem_zip hpq).1)
        (hb.2 rr.2 h2 pq.2 (List.of_mem_zip hpq).2)
    have hsum := List.sum_le_card_nsmul _ _ hpx
    have hlen : ((rr.1.zip rr.2).map (fun pq => pixDist pq.1 pq.2)).length ≤
        imgWidth a := by
      simp only [List.length_map, List.length_zip]
      have := ha.1 rr.1 h1
      omega
    calc ((rr.1.zip rr.2).map (fun pq => pixDist pq.1 pq.2)).sum
        ≤ (((rr.1.zip rr.2).map (fun pq => pixDist pq.1 pq.2)).length : ℝ) *
          maxDiff := by simpa [nsmul_eq_mul] using hsum
      _ ≤ (imgWidth a : ℝ) * maxDiff := by
          apply mul_le_mul_of_nonneg_right _ (le_of_lt maxDiff_pos)
          exact_mod_cast hlen
  have hsum := List.sum_le_card_nsmul _ _ hrow
  have hlen : ((a.zip b).map (fun rr =>
      ((rr.1.zip rr.2).map (fun pq => pixDist pq.1 pq.2)).sum)).length ≤
      a.length := by
    simp only [List.length_map, List.length_zip]
    omega
  calc imgDistSum a b
      ≤ (((a.zip b).map (fun rr =>
          ((rr.1.zip rr.2).map (fun pq => pixDist pq.1 pq.2)).sum)).length : ℝ) *
        ((imgWidth a : ℝ) * maxDiff) := by
        simpa [imgDistSum, nsmul_eq_mul] using hsum
    _ ≤ (a.length : ℝ) * ((imgWidth a : ℝ) * maxDiff) := by
        apply mul_le_mul_of_nonneg_right _
          (mul_nonneg (Nat.cast_nonneg _) (le_of_lt maxDiff_pos))
        exact_mod_cast hlen
    _ = (a.length : ℝ) * (imgWidth a : ℝ) * maxDiff := by ring

theorem pixDist_black_white :
    pixDist ((0 : ℕ), (0 : ℕ), (0 : ℕ)) ((255 : ℕ), (255 : ℕ), (255 : ℕ)) =
      maxDiff := by
  unfold pixDist maxDiff
  norm_num

theorem imgDistSum_blackwhite (a b : Image) (ha : ImgWF a) (hb : ImgWF b)
    (hsh : sameShape a b) (hblack : allBlack a) (hwhite : allWhite b) :
    imgDistSum a b = (a.length : ℝ) * (imgWidth a : ℝ) * maxDiff := by
  unfold imgDistSum
  have hrow : ∀ rr ∈ a.zip b,
      ((rr.1.zip rr.2).map (fun pq => pixDist pq.1 pq.2)).sum =
        (imgWidth a : ℝ) * maxDiff := by
    intro rr hrr
    have h1 : rr.1 ∈ a := (List.of_mem_zip hrr).1
    have h2 : rr.2 ∈ b := (List.of_mem_zip hrr).2
    have hterm : ∀ pq ∈ rr.1.zip rr.2,
        (fun pq : Pixel × Pixel => pixDist pq.1 pq.2) pq = maxDiff := by
      intro pq hpq
      have e1 := hblack rr.1 h1 pq.1 (List.of_mem_zip hpq).1
      have e2 := hwhite rr.2 h2 pq.2 (List.of_mem_zip hpq).2
      simp only [e1, e2]
      exact pixDist_black_white
    have := list_sum_map_const (rr.1.zip rr.2) _ maxDiff hterm
    rw [this, List.length_zip]
    have e1 : rr.1.length = imgWidth a := ha.1 rr.1 h1
    have e2 : rr.2.length = imgWidth b := hb.1 rr.2 h2
    rw [e1, e2, ← hsh.2, min_self]
  have := list_sum_map_const (a.zip b) _ ((imgWidth a : ℝ) * maxDiff) hrow
  rw [this, List.length_zip, ← hsh.1, min_self]
  ring

theorem imgDistSum_eq_zero_iff (a b : Image) (ha : ImgWF a) (hb : ImgWF b)
    (hsh : sameShape a b) : imgDistSum a b = 0 ↔ a = b := by
  constructor
  · intro h
    have h0 : ∀ x ∈ (a.zip b).map (fun rr =>
        ((rr.1.zip rr.2).map (fun pq => pixDist pq.1 pq.2)).sum), 0 ≤ x := by
      intro x hx
      obtain ⟨rr, _, rfl⟩ := List.mem_map.mp hx
      apply List.sum_nonneg
      intro y hy
      obtain ⟨pq, _, rfl⟩ := List.mem_map.mp hy
      exact pixDist_nonneg _ _
    have hz := list_sum_eq_zero h0 h
    apply zip_eq_of_pointwise a b hsh.1
    intro rr hrr
    have hrz : ((rr.1.zip rr.2).map (fun pq => pixDist pq.1 pq.2)).sum = 0 :=
      hz _ (List.mem_map.mpr ⟨rr, hrr, rfl⟩)
    have h0p : ∀ y ∈ (rr.1.zip rr.2).map (fun pq => pixDist pq.1 pq.2),
        0 ≤ y := by
      intro y hy
      obtain ⟨pq, _, rfl⟩ := List.mem_map.mp hy
      exact pixDist_nonneg _ _
    have hpz := list_sum_eq_zero h0p hrz
    have h1 : rr.1 ∈ a := (List.of_mem_zip hrr).1
    have h2 : rr.2 ∈ b := (List.of_mem_zip hrr).2
    apply zip_eq_of_pointwise rr.1 rr.2
    · rw [ha.1 rr.1 h1, hb.1 rr.2 h2, hsh.2]
    · intro pq hpq
      have := hpz _ (List.mem_map.mpr ⟨pq, hpq, rfl⟩)
      exact (pixDist_eq_zero_iff pq.1 pq.2).mp this
  · rintro rfl
    unfold imgDistSum
    have hrow : ∀ rr ∈ a.zip a,
        ((rr.1.zip rr.2).map (fun pq => pixDist pq.1 pq.2)).sum = (0 : ℝ) := by
      intro rr hrr
      have hrr1 : rr.1 = rr.2 := mem_zip_self a rr hrr
      have hterm : ∀ pq ∈ rr.1.zip rr.2,
          (fun pq : Pixel × Pixel => pixDist pq.1 pq.2) pq = (0 : ℝ) := by
        intro pq hpq
        have : pq.1 = pq.2 := by
          rw [hrr1] at hpq
          exact mem_zip_self rr.2 pq hpq
        simp only [this]
        exact pixDist_self _
      have := list_sum_map_const (rr.1.zip rr.2) _ (0 : ℝ) hterm
      rw [this]
      ring
    have := list_sum_map_const (a.zip a) _ (0 : ℝ) hrow
    rw [this]
    ring

/-- C6 (Consistency score bounds): for well-formed 8-bit images (the
master resized by the external resizer when shapes differ, the resizer
returning well-formed data as `cv2.resize` does on `uint8` input), the
score lies in `[0, 1]`; identical images score `0 < 0.001`; for same-shape
images the score is `0` exactly when the images are identical; and a
pure-black image against a pure-white image of the same size scores above
`0.5` and at most `1`. -/
theorem consistency_score_bounds
    (resize : ℕ → ℕ → Image → Image) (generated_image master_image : Image)
    (hg : ImgWF generated_image) (hm : ImgWF master_image)
    (hrs : ∀ w h img, ImgWF img → ImgWF (resize w h img))
    (hne1 : 0 < generated_image.length)
    (hne2 : 0 < imgWidth generated_image) :
    (0 ≤ calculate_consistency_score resize generated_image master_image ∧
      calculate_consistency_score resize generated_image master_image ≤ 1) ∧
    (generated_image = master_image →
      calculate_consistency_score resize generated_image master_image = 0 ∧
      calculate_consistency_score resize generated_image master_image <
        1 / 1000) ∧
    (sameShape generated_image master_image →
      (calculate_consistency_score resize generated_image master_image = 0 ↔
        generated_image = master_image)) ∧
    (sameShape generated_image master_image → allBlack generated_image →
      allWhite master_image →
      1 / 2 < calculate_consistency_score resize generated_image master_image ∧
      calculate_consistency_score resize generated_image master_image ≤ 1) := by
  have hwpos : (0 : ℝ) <
      (generated_image.length : ℝ) * (imgWidth generated_image : ℝ) :=
    mul_pos (by exact_mod_cast hne1) (by exact_mod_cast hne2)
  have bound : ∀ m' : Image, ImgWF m' →
      0 ≤ imgDistSum generated_image m' / maxDiff /
        ((generated_image.length : ℝ) * (imgWidth generated_image : ℝ)) ∧
      imgDistSum generated_image m' / maxDiff /
        ((generated_image.length : ℝ) * (imgWidth generated_image : ℝ)) ≤ 1 := by
    intro m' hm'
    constructor
    · exact div_nonneg (div_nonneg (imgDistSum_nonneg _ _) maxDiff_pos.le)
        hwpos.le
    · rw [div_le_one hwpos, div_le_iff₀ maxDiff_pos]
      exact imgDistSum_le generated_image m' hg hm'
  have zero_iff : sameShape generated_image master_image →
      (calculate_consistency_score resize generated_image master_image = 0 ↔
        generated_image = master_image) := by
    intro hsh
    have hsh' : generated_image.length = master_image.length ∧
        imgWidth generated_image = imgWidth master_image := hsh
    rw [calculate_consistency_score, if_pos hsh']
    rw [div_eq_zero_iff, div_eq_zero_iff]
    simp only [maxDiff_pos.ne', hwpos.ne', or_false]
    exact imgDistSum_eq_zero_iff _ _ hg hm hsh
  refine ⟨?_, ?_, zero_iff, ?_⟩
  · by_cases hsh : generated_image.length = master_image.length ∧
        imgWidth generated_image = imgWidth master_image
    · rw [calculate_consistency_score, if_pos hsh]
      exact bound master_image hm
    · rw [calculate_consistency_score, if_neg hsh]
      exact bound _ (hrs _ _ _ hm)
  · intro heq
    have hsh : sameShape generated_image master_image := by
      constructor <;> rw [heq]
    have h0 := (zero_iff hsh).mpr heq
    exact ⟨h0, by rw [h0]; norm_num⟩
  · intro hsh hblack hwhite
    have hsh' : generated_image.length = master_image.length ∧
        imgWidth generated_image = imgWidth master_image := hsh
    rw [calculate_consistency_score, if_pos hsh']
    rw [imgDistSum_blackwhite _ _ hg hm hsh hblack hwhite]
    have h1 : (generated_image.length : ℝ) * (imgWidth generated_image : ℝ) *
        maxDiff / maxDiff /
        ((generated_image.length : ℝ) * (imgWidth generated_image : ℝ)) = 1 := by
      field_simp [maxDiff_pos.ne', hwpos.ne']
    rw [h1]
    norm_num

/-- A concrete stand-in resizer (constant black output of the requested
size), used to instantiate the resize parameter in the witness. -/
def constResize (w h : ℕ) (img : Image) : Image :=
  List.replicate h (List.replicate w ((0 : ℕ), (0 : ℕ), (0 : ℕ)))

theorem constResize_wf (w h : ℕ) (img : Image) (hi : ImgWF img) :
    ImgWF (constResize w h img) := by
  constructor
  · intro r hr
    cases h with
    | zero => simp [constResize] at hr
    | succ k =>
      have hrw := List.eq_of_mem_replicate hr
      subst hrw
      simp [constResize, imgWidth, List.replicate]
  · intro r hr p hp
    have hrw := List.eq_of_mem_replicate hr
    subst hrw
    have hpw := List.eq_of_mem_replicate hp
    subst hpw
    norm_num

/-- Witness for `consistency_score_bounds`: a 1×1 pure-black image against
a 1×1 pure-white image. -/
theorem consistency_score_bounds_witness :
    (ImgWF [[((0 : ℕ), (0 : ℕ), (0 : ℕ))]] ∧
     ImgWF [[((255 : ℕ), (255 : ℕ), (255 : ℕ))]] ∧
     (∀ w h img, ImgWF img → ImgWF (constResize w h img)) ∧
     0 < ([[((0 : ℕ), (0 : ℕ), (0 : ℕ))]] : Image).length ∧
     0 < imgWidth [[((0 : ℕ), (0 : ℕ), (0 : ℕ))]] ∧
     sameShape [[((0 : ℕ), (0 : ℕ), (0 : ℕ))]]
       [[((255 : ℕ), (255 : ℕ), (255 : ℕ))]] ∧
     allBlack [[((0 : ℕ), (0 : ℕ), (0 : ℕ))]] ∧
     allWhite [[((255 : ℕ), (255 : ℕ), (255 : ℕ))]]) ∧
    (1 / 2 < calculate_consistency_score constResize
        [[((0 : ℕ), (0 : ℕ), (0 : ℕ))]]
        [[((255 : ℕ), (255 : ℕ), (255 : ℕ))]] ∧
     calculate_consistency_score constResize
        [[((0 : ℕ), (0 : ℕ), (0 : ℕ))]]
        [[((255 : ℕ), (255 : ℕ), (255 : ℕ))]] ≤ 1) := by
  have hg : ImgWF [[((0 : ℕ), (0 : ℕ), (0 : ℕ))]] := by
    constructor
    · intro r hr
      simp only [List.mem_singleton] at hr
      subst hr
      rfl
    · intro r hr p hp
      simp only [List.mem_singleton] at hr
      subst hr
      simp only [List.mem_singleton] at hp
      subst hp
      norm_num
  have hm : ImgWF [[((255 : ℕ), (255 : ℕ), (255 : ℕ))]] := by
    constructor
    · intro r hr
      simp only [List.mem_singleton] at hr
      subst hr
      rfl
    · intro r hr p hp
      simp only [List.mem_singleton] at hr
      subst hr
      simp only [List.mem_singleton] at hp
      subst hp
      norm_num
  have hbl : allBlack [[((0 : ℕ), (0 : ℕ), (0 : ℕ))]] := by
    intro r hr p hp
    simp only [List.mem_singleton] at hr
    subst hr
    simpa using hp
  have hwh : allWhite [[((255 : ℕ), (255 : ℕ), (255 : ℕ))]] := by
    intro r hr p hp
    simp only [List.mem_singleton] at hr
    subst hr
    simpa using hp
  have hsh : sameShape [[((0 : ℕ), (0 : ℕ), (0 : ℕ))]]
      [[((255 : ℕ), (255 : ℕ), (255 : ℕ))]] := ⟨rfl, rfl⟩
  refine ⟨⟨hg, hm, constResize_wf, by norm_num, by norm_num [imgWidth],
    hsh, hbl, hwh⟩, ?_⟩
  exact (consistency_score_bounds constResize _ _ hg hm constResize_wf
    (by norm_num) (by norm_num [imgWidth])).2.2.2 hsh hbl hwh

/-! ## Heap model for the frame property of `merge_configs` (C9)

To state that `merge_configs` does not mutate its arguments, the Python
object graph is modelled explicitly: containers (dicts and lists) live on
a heap addressed by naturals, other values are immediate.  `copy.deepcopy`
is modelled without its memo table, i.e. for inputs whose containers form
a tree — which JSON-derived configurations are; aliased or cyclic inputs
are outside the model (the fuel runs out on cycles).  Every write the
merge performs (`setObj`) then targets an address allocated at or after
the call started, so every pre-existing address is untouched. -/

/-- An immediate Python value or a reference to a heap container. -/
inductive PyVal where
  | vnull : PyVal
  | vbool : Bool → PyVal
  | vnum : Int → PyVal
  | vstr : String → PyVal
  | ref : Nat → PyVal

/-- A heap container: a dict or a list. -/
inductive PyObj where
  | dict : List (String × PyVal) → PyObj
  | list : List PyVal → PyObj

/-- The Python heap: container store and next fresh address. -/
structure Heap where
  objs : Nat → Option PyObj
  next : Nat

/-- Allocate a fresh container (at address `h.next`). -/
def allocObj (h : Heap) (o : PyObj) : Heap :=
  { objs := fun a => if a = h.next then some o else h.objs a,
    next := h.next + 1 }

/-- Overwrite the container at an existing address (in-place mutation). -/
def setObj (h : Heap) (a : Nat) (o : PyObj) : Heap :=
  { objs := fun x => if x = a then some o else h.objs x, next := h.next }

/-- `d[k] = v` on an association list (generic version of `jset`). -/
def aset {α : Type} (kvs : List (String × α)) (k : String) (v : α) :
    List (String × α) :=
  match kvs with
  | [] => [(k, v)]
  | (k', v') :: rest =>
    if k' = k then (k', v) :: rest else (k', v') :: aset rest k v

/-- `base.update(overrides)` on association lists. -/
def aupdate (base overrides : List (String × PyVal)) :
    List (String × PyVal) :=
  overrides.foldl (fun acc kv => aset acc kv.1 kv.2) base

/-- `d.get(k, default)` on an association list of heap values. -/
def pget (kvs : List (String × PyVal)) (k : String) (d : PyVal) : PyVal :=
  (alookup kvs k).getD d

/-- Python truthiness of a heap value (`if x:`). -/
def truthyH (h : Heap) : PyVal → Bool
  | .vnull => false
  | .vbool b => b
  | .vnum n => n ≠ 0
  | .vstr s => s ≠ ""
  | .ref a =>
    match h.objs a with
    | some (.dict kvs) => !kvs.isEmpty
    | some (.list xs) => !xs.isEmpty
    | none => false

/-- Copy the entries of a dict, left to right, with the given copier. -/
def dcFold (dc : Heap → PyVal → Option (Heap × PyVal)) :
    Heap → List (String × PyVal) →
    Option (Heap × List (String × PyVal))
  | h, [] => some (h, [])
  | h, (k, v) :: rest =>
    match dc h v with
    | none => none
    | some (h1, v') =>
      match dcFold dc h1 rest with
      | none => none
      | some (h2, rest') => some (h2, (k, v') :: rest')

/-- Copy the items of a list, left to right, with the given copier. -/
def dcFoldL (dc : Heap → PyVal → Option (Heap × PyVal)) :
    Heap → List PyVal → Option (Heap × List PyVal)
  | h, [] => some (h, [])
  | h, v :: rest =>
    match dc h v with
    | none => none
    | some (h1, v') =>
      match dcFoldL dc h1 rest with
      | none => none
      | some (h2, rest') => some (h2, v' :: rest')

/-- `copy.deepcopy` on a value (no memo table: tree-shaped data; the
fuel bounds the reference depth and runs out on cyclic data). -/
def dcVal : Nat → Heap → PyVal → Option (Heap × PyVal)
  | 0, _, _ => none
  | _ + 1, h, .vnull => some (h, .vnull)
  | _ + 1, h, .vbool b => some (h, .vbool b)
  | _ + 1, h, .vnum n => some (h, .vnum n)
  | _ + 1, h, .vstr s => some (h, .vstr s)
  | fuel + 1, h, .ref a =>
    match h.objs a with
    | none => none
    | some (.dict kvs) =>
      match dcFold (dcVal fuel) h kvs with
      | none => none
      | some (h1, kvs') => some (allocObj h1 (.dict kvs'), .ref h1.next)
    | some (.list xs) =>
      match dcFoldL (dcVal fuel) h xs with
      | none => none
      | some (h1, xs') => some (allocObj h1 (.list xs'), .ref h1.next)

/-! ### Address-interval invariants for the deep copy -/

/-- Every reference held by the value lies in the interval lo..hi. -/
def ValIn (lo hi : Nat) (v : PyVal) : Prop :=
  ∀ a, v = .ref a → lo ≤ a ∧ a < hi

/-- Every reference stored directly in the container lies in lo..hi. -/
def ObjIn (lo hi : Nat) : PyObj → Prop
  | .dict kvs => ∀ kv ∈ kvs, ValIn lo hi kv.2
  | .list xs => ∀ x ∈ xs, ValIn lo hi x

/-- No container lives at or above the fresh-address counter. -/
def HeapWF (h : Heap) : Prop := ∀ a, h.next ≤ a → h.objs a = none

/-- Entry values that are references are strictly ordered. -/
def refLt (p q : String × PyVal) : Prop :=
  ∀ a b, p.2 = .ref a → q.2 = .ref b → a < b

theorem ValIn_mono {lo hi lo' hi' : Nat} {v : PyVal} (h : ValIn lo hi v)
    (h1 : lo' ≤ lo) (h2 : hi ≤ hi') : ValIn lo' hi' v :=
  fun a ha => ⟨le_trans h1 (h a ha).1, lt_of_lt_of_le (h a ha).2 h2⟩

theorem ObjIn_mono {lo hi lo' hi' : Nat} {o : PyObj} (h : ObjIn lo hi o)
    (h1 : lo' ≤ lo) (h2 : hi ≤ hi') : ObjIn lo' hi' o := by
  cases o with
  | dict kvs => exact fun kv hm => ValIn_mono (h kv hm) h1 h2
  | list xs => exact fun x hm => ValIn_mono (h x hm) h1 h2

theorem allocObj_objs_ne (h : Heap) (o : PyObj) {a : Nat}
    (ha : a ≠ h.next) : (allocObj h o).objs a = h.objs a := by
  simp [allocObj, ha]

theorem allocObj_objs_self (h : Heap) (o : PyObj) :
    (allocObj h o).objs h.next = some o := by
  simp [allocObj]

theorem allocObj_next (h : Heap) (o : PyObj) :
    (allocObj h o).next = h.next + 1 := rfl

theorem setObj_objs_ne (h : Heap) (b : Nat) (o : PyObj) {a : Nat}
    (ha : a ≠ b) : (setObj h b o).objs a = h.objs a := by
  simp [setObj, ha]

theorem setObj_objs_self (h : Heap) (b : Nat) (o : PyObj) :
    (setObj h b o).objs b = some o := by
  simp [setObj]

theorem setObj_next (h : Heap) (b : Nat) (o : PyObj) :
    (setObj h b o).next = h.next := rfl

theorem HeapWF_allocObj {h : Heap} (hwf : HeapWF h) (o : PyObj) :
    HeapWF (allocObj h o) := by
  intro a ha
  rw [allocObj_next] at ha
  rw [allocObj_objs_ne h o (by omega)]
  exact hwf a (by omega)

theorem HeapWF_setObj {h : Heap} (hwf : HeapWF h) {b : Nat} (o : PyObj)
    (hb : b < h.next) : HeapWF (setObj h b o) := by
  intro a ha
  rw [setObj_next] at ha
  rw [setObj_objs_ne h b o (by omega)]
  exact hwf a ha

theorem lt_next_of_objs {h : Heap} (hwf : HeapWF h) {a : Nat} {o : PyObj}
    (ho : h.objs a = some o) : a < h.next := by
  by_contra hc
  rw [hwf a (by omega)] at ho
  cases ho

/-- Specification of a copier: old addresses untouched, the counter is
monotone, the result value and every newly created container's
references are fresh, and a new container refers only below itself. -/
def DCSpec (dc : Heap → PyVal → Option (Heap × PyVal)) : Prop :=
  ∀ h v h1 v1, dc h v = some (h1, v1) → HeapWF h →
    (∀ a, a < h.next → h1.objs a = h.objs a) ∧ h.next ≤ h1.next ∧
    HeapWF h1 ∧ ValIn h.next h1.next v1 ∧
    (∀ b, h.next ≤ b → ∀ o, h1.objs b = some o → ObjIn h.next b o ∧
      ∀ kvs, o = .dict kvs → List.Pairwise refLt kvs)

theorem dc_id_spec {h : Heap} {v1 : PyVal} (hwf : HeapWF h)
    (hnr : ∀ a, v1 ≠ .ref a) :
    (∀ a, a < h.next → h.objs a = h.objs a) ∧ h.next ≤ h.next ∧
    HeapWF h ∧ ValIn h.next h.next v1 ∧
    (∀ b, h.next ≤ b → ∀ o, h.objs b = some o → ObjIn h.next b o ∧
      ∀ kvs, o = .dict kvs → List.Pairwise refLt kvs) := by
  refine ⟨fun a _ => rfl, le_rfl, hwf, ?_, ?_⟩
  · intro a ha
    exact absurd ha (hnr a)
  · intro b hb o ho
    rw [hwf b hb] at ho
    cases ho

/-- `dcFold` spec: additionally, keys are preserved and the copied
values, where references, are strictly increasing across the entries. -/
theorem dcFold_spec (dc : Heap → PyVal → Option (Heap × PyVal))
    (hdc : DCSpec dc) (kvs : List (String × PyVal)) (h h1 : Heap)
    (kvs1 : List (String × PyVal))
    (heq : dcFold dc h kvs = some (h1, kvs1)) (hwf : HeapWF h) :
    (∀ a, a < h.next → h1.objs a = h.objs a) ∧ h.next ≤ h1.next ∧
    HeapWF h1 ∧ (∀ kv ∈ kvs1, ValIn h.next h1.next kv.2) ∧
    List.Pairwise refLt kvs1 ∧ kvs1.map Prod.fst = kvs.map Prod.fst ∧
    (∀ b, h.next ≤ b → ∀ o, h1.objs b = some o → ObjIn h.next b o ∧
      ∀ kvs0, o = .dict kvs0 → List.Pairwise refLt kvs0) := by
  induction kvs generalizing h kvs1 with
  | nil =>
    simp only [dcFold, Option.some.injEq, Prod.mk.injEq] at heq
    obtain ⟨rfl, rfl⟩ := heq
    refine ⟨fun a _ => rfl, le_rfl, hwf, ?_, List.Pairwise.nil, rfl, ?_⟩
    · intro kv hm
      simp at hm
    · intro b hb o ho
      rw [hwf b hb] at ho
      cases ho
  | cons kv rest ihr =>
    obtain ⟨k, v⟩ := kv
    simp only [dcFold] at heq
    cases hdv : dc h v with
    | none => simp only [hdv] at heq; exact Option.noConfusion heq
    | some p =>
      obtain ⟨hA, v'⟩ := p
      simp only [hdv] at heq
      cases hdr : dcFold dc hA rest with
      | none => simp only [hdr] at heq; exact Option.noConfusion heq
      | some q =>
        obtain ⟨h2, rest'⟩ := q
        simp only [hdr] at heq
        simp only [Option.some.injEq, Prod.mk.injEq] at heq
        obtain ⟨rfl, rfl⟩ := heq
        obtain ⟨f1, m1, w1, vi1, n1⟩ := hdc h v hA v' hdv hwf
        obtain ⟨f2, m2, w2, vv2, pw2, kk2, n2⟩ := ihr hA rest' hdr w1
        refine ⟨?_, le_trans m1 m2, w2, ?_, ?_, ?_, ?_⟩
        · intro a ha
          rw [f2 a (lt_of_lt_of_le ha m1), f1 a ha]
        · intro kv hm
          rcases List.mem_cons.mp hm with rfl | hm'
          · exact ValIn_mono vi1 le_rfl m2
          · exact ValIn_mono (vv2 kv hm') m1 le_rfl
        · refine List.Pairwise.cons ?_ pw2
          intro q hq a b ha hb
          exact lt_of_lt_of_le (vi1 a ha).2 (vv2 q hq b hb).1
        · simp [kk2]
        · intro b hb o ho
          by_cases hblt : b < hA.next
          · rw [f2 b hblt] at ho
            exact n1 b hb o ho
          · obtain ⟨ho1, ho2⟩ := n2 b (by omega) o ho
            exact ⟨ObjIn_mono ho1 m1 le_rfl, ho2⟩

/-- `dcFoldL` spec. -/
theorem dcFoldL_spec (dc : Heap → PyVal → Option (Heap × PyVal))
    (hdc : DCSpec dc) (xs : List PyVal) (h h1 : Heap) (xs1 : List PyVal)
    (heq : dcFoldL dc h xs = some (h1, xs1)) (hwf : HeapWF h) :
    (∀ a, a < h.next → h1.objs a = h.objs a) ∧ h.next ≤ h1.next ∧
    HeapWF h1 ∧ (∀ x ∈ xs1, ValIn h.next h1.next x) ∧
    (∀ b, h.next ≤ b → ∀ o, h1.objs b = some o → ObjIn h.next b o ∧
      ∀ kvs0, o = .dict kvs0 → List.Pairwise refLt kvs0) := by
  induction xs generalizing h xs1 with
  | nil =>
    simp only [dcFoldL, Option.some.injEq, Prod.mk.injEq] at heq
    obtain ⟨rfl, rfl⟩ := heq
    refine ⟨fun a _ => rfl, le_rfl, hwf, ?_, ?_⟩
    · intro x hm
      simp at hm
    · intro b hb o ho
      rw [hwf b hb] at ho
      cases ho
  | cons v rest ihr =>
    simp only [dcFoldL] at heq
    cases hdv : dc h v with
    | none => simp only [hdv] at heq; exact Option.noConfusion heq
    | some p =>
      obtain ⟨hA, v'⟩ := p
      simp only [hdv] at heq
      cases hdr : dcFoldL dc hA rest with
      | none => simp only [hdr] at heq; exact Option.noConfusion heq
      | some q =>
        obtain ⟨h2, rest'⟩ := q
        simp only [hdr] at heq
        simp only [Option.some.injEq, Prod.mk.injEq] at heq
        obtain ⟨rfl, rfl⟩ := heq
        obtain ⟨f1, m1, w1, vi1, n1⟩ := hdc h v hA v' hdv hwf
        obtain ⟨f2, m2, w2, vv2, n2⟩ := ihr hA rest' hdr w1
        refine ⟨?_, le_trans m1 m2, w2, ?_, ?_⟩
        · intro a ha
          rw [f2 a (lt_of_lt_of_le ha m1), f1 a ha]
        · intro x hm
          rcases List.mem_cons.mp hm with rfl | hm'
          · exact ValIn_mono vi1 le_rfl m2
          · exact ValIn_mono (vv2 x hm') m1 le_rfl
        · intro b hb o ho
          by_cases hblt : b < hA.next
          · rw [f2 b hblt] at ho
            exact n1 b hb o ho
          · obtain ⟨ho1, ho2⟩ := n2 b (by omega) o ho
            exact ⟨ObjIn_mono ho1 m1 le_rfl, ho2⟩

/-- The deep copy only allocates fresh containers and returns a fresh
reference; every pre-existing address keeps its container. -/
theorem dcVal_spec (fuel : Nat) : DCSpec (dcVal fuel) := by
  induction fuel with
  | zero =>
    intro h v h1 v1 heq hwf
    simp [dcVal] at heq
  | succ fuel ih =>
    intro h v h1 v1 heq hwf
    cases v with
    | vnull =>
      simp only [dcVal, Option.some.injEq, Prod.mk.injEq] at heq
      obtain ⟨rfl, rfl⟩ := heq
      exact dc_id_spec hwf (fun a ha => PyVal.noConfusion ha)
    | vbool b0 =>
      simp only [dcVal, Option.some.injEq, Prod.mk.injEq] at heq
      obtain ⟨rfl, rfl⟩ := heq
      exact dc_id_spec hwf (fun a ha => PyVal.noConfusion ha)
    | vnum n0 =>
      simp only [dcVal, Option.some.injEq, Prod.mk.injEq] at heq
      obtain ⟨rfl, rfl⟩ := heq
      exact dc_id_spec hwf (fun a ha => PyVal.noConfusion ha)
    | vstr s0 =>
      simp only [dcVal, Option.some.injEq, Prod.mk.injEq] at heq
      obtain ⟨rfl, rfl⟩ := heq
      exact dc_id_spec hwf (fun a ha => PyVal.noConfusion ha)
    | ref a0 =>
      cases hobj : h.objs a0 with
      | none => simp only [dcVal, hobj] at heq; exact Option.noConfusion heq
      | some o0 =>
        cases o0 with
        | dict kvs =>
          simp only [dcVal, hobj] at heq
          cases hdc : dcFold (dcVal fuel) h kvs with
          | none => simp only [hdc] at heq; exact Option.noConfusion heq
          | some p =>
            obtain ⟨hA, kvs'⟩ := p
            simp only [hdc] at heq
            simp only [Option.some.injEq, Prod.mk.injEq] at heq
            obtain ⟨rfl, rfl⟩ := heq
            obtain ⟨f1, m1, w1, vv1, pw1, kk1, n1⟩ :=
              dcFold_spec (dcVal fuel) ih kvs h hA kvs' hdc hwf
            refine ⟨?_, ?_, HeapWF_allocObj w1 _, ?_, ?_⟩
            · intro a ha
              rw [allocObj_objs_ne hA _ (by omega), f1 a ha]
            · rw [allocObj_next]
              omega
            · intro a ha
              injection ha with ha'
              subst ha'
              rw [allocObj_next]
              omega
            · intro b hb o ho
              by_cases hba : b = hA.next
              · subst hba
                rw [allocObj_objs_self] at ho
                cases ho
                refine ⟨fun kv hm => vv1 kv hm, ?_⟩
                intro kvs0 hcon
                injection hcon with hcon'
                subst hcon'
                exact pw1
              · rw [allocObj_objs_ne hA _ hba] at ho
                exact n1 b hb o ho
        | list xs =>
          simp only [dcVal, hobj] at heq
          cases hdc : dcFoldL (dcVal fuel) h xs with
          | none => simp only [hdc] at heq; exact Option.noConfusion heq
          | some p =>
            obtain ⟨hA, xs'⟩ := p
            simp only [hdc] at heq
            simp only [Option.some.injEq, Prod.mk.injEq] at heq
            obtain ⟨rfl, rfl⟩ := heq
            obtain ⟨f1, m1, w1, vv1, n1⟩ :=
              dcFoldL_spec (dcVal fuel) ih xs h hA xs' hdc hwf
            refine ⟨?_, ?_, HeapWF_allocObj w1 _, ?_, ?_⟩
            · intro a ha
              rw [allocObj_objs_ne hA _ (by omega), f1 a ha]
            · rw [allocObj_next]
              omega
            · intro a ha
              injection ha with ha'
              subst ha'
              rw [allocObj_next]
              omega
            · intro b hb o ho
              by_cases hba : b = hA.next
              · subst hba
                rw [allocObj_objs_self] at ho
                cases ho
                refine ⟨fun x hm => vv1 x hm, ?_⟩
                intro kvs0 hcon
                exact PyObj.noConfusion hcon
              · rw [allocObj_objs_ne hA _ hba] at ho
                exact n1 b hb o ho

/-- Lines 61-64: the four in-place writes into `result["metadata"]`.
Raises (returns `none`) when `result["metadata"]` is not a dict. -/
def stampMetadataH (now : String) (h : Heap) (ar aregion : Nat) :
    Option Heap :=
  match h.objs ar, h.objs aregion with
  | some (.dict rootkvs), some (.dict regkvs) =>
    match alookup rootkvs "metadata" with
    | some (.ref amd) =>
      match h.objs amd with
      | some (.dict mdkvs) =>
        some (setObj h amd (.dict (aset (aset (aset (aset mdkvs
          "region_id" (pget regkvs "region_id" .vnull))
          "region_name" (pget regkvs "display_name" .vnull))
          "locale" (pget regkvs "locale" .vnull))
          "localized_at" (.vstr now))))
      | _ => none
    | _ => none
  | _, _ => none

/-- `isinstance(v, dict)`: the address and entries of the dict a value
refers to, if any. -/
def asDictA (h : Heap) (v : PyVal) :
    Option (Nat × List (String × PyVal)) :=
  match v with
  | .ref a =>
    match h.objs a with
    | some (.dict d) => some (a, d)
    | _ => none
  | _ => none

/-- Lines 77-86: one iteration of the override loop, mutating the dict at
`avp` or a nested dict held in it. -/
def applyOverrideH (h : Heap) (avp : Nat) (k : String) (v : PyVal) :
    Option Heap :=
  match h.objs avp with
  | some (.dict kvs) =>
    match alookup kvs k with
    | some old =>
      match asDictA h v with
      | some (_, o) =>
        match asDictA h old with
        | some (am2, m2) => some (setObj h am2 (.dict (aupdate m2 o)))
        | none => some (setObj h avp (.dict (aset kvs k v)))
      | none => some (setObj h avp (.dict (aset kvs k v)))
    | none => some (setObj h avp (.dict (aset kvs k v)))
  | _ => none

/-- Line 76: the override loop over the environment-override items. -/
def applyOverridesH (h : Heap) (avp : Nat) :
    List (String × PyVal) → Option Heap
  | [] => some h
  | (k, v) :: rest =>
    match applyOverrideH h avp k v with
    | none => none
    | some h1 => applyOverridesH h1 avp rest

/-- Line 72 plus the loop: fetch `variable_parameters` (allocating the
fresh `\x7b\x7d` default when absent) and run the overrides on it.  A
non-dict value raises on the first item. -/
def applyVarCore (h : Heap) (rootkvs envkvs : List (String × PyVal)) :
    Option Heap :=
  match alookup rootkvs "variable_parameters" with
  | some (.ref avp) =>
    match h.objs avp with
    | some (.dict _) => applyOverridesH h avp envkvs
    | _ => if envkvs.isEmpty then some h else none
  | some _ => if envkvs.isEmpty then some h else none
  | none => applyOverridesH (allocObj h (.dict [])) h.next envkvs

/-- Lines 72-86: fetch the environment overrides from the region config
(`.items()` raises on a non-dict) and merge them into the copy's
variable parameters. -/
def applyVariableOverridesH (h : Heap) (ar aregion : Nat) : Option Heap :=
  match h.objs ar, h.objs aregion with
  | some (.dict rootkvs), some (.dict regkvs) =>
    match alookup regkvs "environment_overrides" with
    | some (.ref ae) =>
      match h.objs ae with
      | some (.dict envkvs) => applyVarCore h rootkvs envkvs
      | _ => none
    | some _ => none
    | none => applyVarCore h rootkvs []
  | _, _ => none

/-- `result[key] = v` at the top level of the copy. -/
def setRootKeyH (h : Heap) (ar : Nat) (key : String) (v : PyVal) :
    Option Heap :=
  match h.objs ar with
  | some (.dict kvs) => some (setObj h ar (.dict (aset kvs key v)))
  | _ => none

/-- `result["metadata"][key] = v`. -/
def addMetadataFlagH (h : Heap) (ar : Nat) (key : String) (v : PyVal) :
    Option Heap :=
  match h.objs ar with
  | some (.dict kvs) =>
    match alookup kvs "metadata" with
    | some (.ref amd) =>
      match h.objs amd with
      | some (.dict md) => some (setObj h amd (.dict (aset md key v)))
      | _ => none
    | _ => none
  | _ => none

/-- Guardrail step for one key of the guardrails dict: if present and
truthy, perform the given write; otherwise leave the heap unchanged
(the absent-key default `[]` is falsy). -/
def guardStepH (h : Heap) (g : List (String × PyVal))
    (key : String) (write : Heap → PyVal → Option Heap) : Option Heap :=
  match alookup g key with
  | some v => if truthyH h v then write h v else some h
  | none => some h

/-- Lines 100-140 (`_apply_brand_guardrails`) on the heap. -/
def applyBrandGuardrailsH (h : Heap) (ar acampaign : Nat) : Option Heap :=
  match h.objs acampaign with
  | some (.dict cc) =>
    match alookup cc "brand_guardrails" with
    | none => some h
    | some (.ref ag) =>
      match h.objs ag with
      | some (.dict g) =>
        match guardStepH h g "negative_prompts"
            (fun h v => setRootKeyH h ar "negative_prompts" v) with
        | none => none
        | some h1 =>
          match guardStepH h1 g "forbidden_elements"
              (fun h v => addMetadataFlagH h ar "forbidden_elements" v) with
          | none => none
          | some h2 =>
            guardStepH h2 g "required_elements"
              (fun h v => addMetadataFlagH h ar "required_elements" v)
      | _ => none
    | some _ => none
  | _ => none

/-- Line 95: `result["metadata"]["cultural_context"] =
region_config.get("cultural_context", \x7b\x7d)`; the default allocates
a fresh empty dict. -/
def setCulturalContextH (h : Heap) (ar aregion : Nat) : Option Heap :=
  match h.objs aregion with
  | some (.dict regkvs) =>
    match alookup regkvs "cultural_context" with
    | some v => addMetadataFlagH h ar "cultural_context" v
    | none =>
      addMetadataFlagH (allocObj h (.dict [])) ar "cultural_context"
        (.ref h.next)
  | _ => none

/-- Lines 36-98: `merge_configs` on the heap.  `amaster`, `aregion` and
`acampaign` are the addresses of the three argument dicts; the result is
the final heap together with the address of the merged copy.  `none`
models a Python exception (or deepcopy fuel exhaustion). -/
def merge_configs_heap (fuel : Nat) (now : String) (h0 : Heap)
    (amaster aregion : Nat) (acampaign : Option Nat) :
    Option (Heap × Nat) :=
  match dcVal fuel h0 (.ref amaster) with
  | some (h1, .ref ar) =>
    match stampMetadataH now h1 ar aregion with
    | some h2 =>
      match applyVariableOverridesH h2 ar aregion with
      | some h3 =>
        match (match acampaign with
          | some ac => applyBrandGuardrailsH h3 ar ac
          | none => some h3) with
        | some h4 =>
          match setCulturalContextH h4 ar aregion with
          | some h5 => some (h5, ar)
          | none => none
        | none => none
      | none => none
    | none => none
  | _ => none

theorem alookup_aset_self {α : Type} (kvs : List (String × α))
    (k : String) (v : α) : alookup (aset kvs k v) k = some v := by
  induction kvs with
  | nil => simp [aset, alookup]
  | cons kv rest ih =>
    obtain ⟨k0, v0⟩ := kv
    by_cases hk : k0 = k
    · subst hk
      simp [aset, alookup]
    · simp [aset, alookup, hk, ih]

theorem alookup_aset_ne {α : Type} (kvs : List (String × α)) (k : String)
    (v : α) (k2 : String) (h : k2 ≠ k) :
    alookup (aset kvs k v) k2 = alookup kvs k2 := by
  induction kvs with
  | nil => simp [aset, alookup, Ne.symm h]
  | cons kv rest ih =>
    obtain ⟨k0, v0⟩ := kv
    by_cases hk : k0 = k
    · subst hk
      simp [aset, alookup, Ne.symm h]
    · by_cases hk2 : k0 = k2
      · simp [aset, alookup, hk, hk2, h]
      · simp [aset, alookup, hk, hk2, ih]

theorem alookup_mem_pair {α : Type} {kvs : List (String × α)} {k : String}
    {v : α} (h : alookup kvs k = some v) : (k, v) ∈ kvs := by
  induction kvs with
  | nil => simp [alookup] at h
  | cons kv rest ih =>
    obtain ⟨k0, v0⟩ := kv
    by_cases hk : k0 = k
    · subst hk
      simp [alookup] at h
      subst h
      exact List.mem_cons_self _ _
    · simp only [alookup, if_neg hk] at h
      exact List.mem_cons_of_mem _ (ih h)

/-- Distinct keys of a `refLt`-pairwise dict hold distinct references. -/
theorem alookup_pairwise_ne {kvs : List (String × PyVal)}
    (hp : List.Pairwise refLt kvs) {k1 k2 : String} {a1 a2 : Nat}
    (h1 : alookup kvs k1 = some (.ref a1))
    (h2 : alookup kvs k2 = some (.ref a2)) (hne : k1 ≠ k2) : a1 ≠ a2 := by
  induction kvs with
  | nil => simp [alookup] at h1
  | cons kv rest ih =>
    obtain ⟨k0, v0⟩ := kv
    obtain ⟨hhead, htail⟩ := List.pairwise_cons.mp hp
    by_cases hk1 : k0 = k1
    · subst hk1
      simp [alookup] at h1
      have hne2 : ¬ (k0 = k2) := fun hc => hne hc
      simp only [alookup, if_neg hne2] at h2
      have hlt := hhead _ (alookup_mem_pair h2) a1 a2 h1 rfl
      omega
    · by_cases hk2 : k0 = k2
      · subst hk2
        simp [alookup] at h2
        simp only [alookup, if_neg hk1] at h1
        have hlt := hhead _ (alookup_mem_pair h1) a2 a1 h2 rfl
        omega
      · simp only [alookup, if_neg hk1] at h1
        simp only [alookup, if_neg hk2] at h2
        exact ih htail h1 h2

theorem asDictA_ref {h : Heap} {v : PyVal} {a : Nat}
    {d : List (String × PyVal)} (hd : asDictA h v = some (a, d)) :
    v = .ref a ∧ h.objs a = some (.dict d) := by
  cases v with
  | ref a0 =>
    cases hobj : h.objs a0 with
    | none => simp [asDictA, hobj] at hd
    | some o =>
      cases o with
      | dict kvs =>
        simp only [asDictA, hobj, Option.some.injEq, Prod.mk.injEq] at hd
        obtain ⟨rfl, rfl⟩ := hd
        exact ⟨rfl, hobj⟩
      | list xs => simp [asDictA, hobj] at hd
  | vnull => simp [asDictA] at hd
  | vbool b => simp [asDictA] at hd
  | vnum n => simp [asDictA] at hd
  | vstr s => simp [asDictA] at hd

/-- The plain-assignment branches of the override step. -/
theorem setDict_spec {lo : Nat} (h : Heap) (avp : Nat) (k : String)
    (v : PyVal) (kvs : List (String × PyVal))
    (hobja : h.objs avp = some (.dict kvs)) (hwf : HeapWF h)
    (hlo : lo ≤ avp) :
    (∀ a, a < lo → (setObj h avp (.dict (aset kvs k v))).objs a =
      h.objs a) ∧
    (∀ a, avp < a → (setObj h avp (.dict (aset kvs k v))).objs a =
      h.objs a) ∧
    (setObj h avp (.dict (aset kvs k v))).next = h.next ∧
    HeapWF (setObj h avp (.dict (aset kvs k v))) ∧
    (∃ kvs0 kvs1, h.objs avp = some (.dict kvs0) ∧
      (setObj h avp (.dict (aset kvs k v))).objs avp =
        some (.dict kvs1) ∧
      ∀ k2, k2 ≠ k → alookup kvs1 k2 = alookup kvs0 k2) := by
  refine ⟨?_, ?_, setObj_next h avp _,
    HeapWF_setObj hwf _ (lt_next_of_objs hwf hobja), ?_⟩
  · intro a ha
    exact setObj_objs_ne h avp _ (by omega)
  · intro a ha
    exact setObj_objs_ne h avp _ (by omega)
  · exact ⟨kvs, aset kvs k v, hobja, setObj_objs_self h avp _,
      fun k2 hk2 => alookup_aset_ne kvs k v k2 hk2⟩

/-- One override step only writes at `avp` or at a nested dict whose
address the invariant bounds inside lo..avp. -/
theorem applyOverrideH_spec {lo : Nat} (h : Heap) (avp : Nat) (k : String)
    (v : PyVal) (hB : Heap) (heq : applyOverrideH h avp k v = some hB)
    (hwf : HeapWF h) (hlo : lo ≤ avp)
    (hPk : ∀ kvs old, h.objs avp = some (.dict kvs) →
      alookup kvs k = some old → ValIn lo avp old) :
    (∀ a, a < lo → hB.objs a = h.objs a) ∧
    (∀ a, avp < a → hB.objs a = h.objs a) ∧
    hB.next = h.next ∧ HeapWF hB ∧
    (∃ kvs0 kvs1, h.objs avp = some (.dict kvs0) ∧
      hB.objs avp = some (.dict kvs1) ∧
      ∀ k2, k2 ≠ k → alookup kvs1 k2 = alookup kvs0 k2) := by
  cases hobja : h.objs avp with
  | none =>
    simp only [applyOverrideH, hobja] at heq
    exact Option.noConfusion heq
  | some o0 =>
    cases o0 with
    | list xs =>
      simp only [applyOverrideH, hobja] at heq
      exact Option.noConfusion heq
    | dict kvs =>
      simp only [applyOverrideH, hobja] at heq
      rw [← hobja]
      cases hlk : alookup kvs k with
      | none =>
        simp only [hlk, Option.some.injEq] at heq
        subst heq
        exact setDict_spec h avp k v kvs hobja hwf hlo
      | some old =>
        simp only [hlk] at heq
        cases hdvd : asDictA h v with
        | none =>
          simp only [hdvd, Option.some.injEq] at heq
          subst heq
          exact setDict_spec h avp k v kvs hobja hwf hlo
        | some p =>
          obtain ⟨av, o⟩ := p
          simp only [hdvd] at heq
          cases hdo : asDictA h old with
          | none =>
            simp only [hdo, Option.some.injEq] at heq
            subst heq
            exact setDict_spec h avp k v kvs hobja hwf hlo
          | some q =>
            obtain ⟨am2, m2⟩ := q
            simp only [hdo, Option.some.injEq] at heq
            subst heq
            obtain ⟨hor, hoo⟩ := asDictA_ref hdo
            obtain ⟨hfr1, hfr2⟩ := hPk kvs old hobja hlk am2 hor
            have ham2lt : am2 < h.next := lt_next_of_objs hwf hoo
            refine ⟨?_, ?_, setObj_next h am2 _,
              HeapWF_setObj hwf _ ham2lt, ?_⟩
            · intro a ha
              exact setObj_objs_ne h am2 _ (by omega)
            · intro a ha
              exact setObj_objs_ne h am2 _ (by omega)
            · refine ⟨kvs, kvs, hobja, ?_, fun k2 _ => rfl⟩
              rw [setObj_objs_ne h am2 _ (by omega)]
              exact hobja

/-- The override loop only writes at `avp` or inside lo..avp, provided
the dict at `avp` maps every pending override key to a reference inside
lo..avp (or to a non-reference). -/
theorem applyOverridesH_spec {lo : Nat} (entries : List (String × PyVal))
    (h : Heap) (avp : Nat) (hfin : Heap)
    (heq : applyOverridesH h avp entries = some hfin)
    (hwf : HeapWF h) (hlo : lo ≤ avp)
    (hnd : (entries.map Prod.fst).Nodup)
    (hP : ∀ k v, (k, v) ∈ entries → ∀ kvs old,
      h.objs avp = some (.dict kvs) → alookup kvs k = some old →
      ValIn lo avp old) :
    (∀ a, a < lo → hfin.objs a = h.objs a) ∧
    (∀ a, avp < a → hfin.objs a = h.objs a) ∧
    hfin.next = h.next ∧ HeapWF hfin := by
  induction entries generalizing h with
  | nil =>
    simp only [applyOverridesH, Option.some.injEq] at heq
    subst heq
    exact ⟨fun a _ => rfl, fun a _ => rfl, rfl, hwf⟩
  | cons kv rest ih =>
    obtain ⟨k, v⟩ := kv
    simp only [applyOverridesH] at heq
    cases hstep : applyOverrideH h avp k v with
    | none =>
      simp only [hstep] at heq
      exact Option.noConfusion heq
    | some hB =>
      simp only [hstep] at heq
      obtain ⟨fB, gB, nB, wB, kvs0, kvs1, hO, hOB, hpres⟩ :=
        applyOverrideH_spec h avp k v hB hstep hwf hlo
          (fun kvs old hh1 hh2 =>
            hP k v (List.mem_cons_self _ _) kvs old hh1 hh2)
      have hnd' : k ∉ rest.map Prod.fst ∧ (rest.map Prod.fst).Nodup := by
        simpa [List.nodup_cons] using hnd
      have hPrest : ∀ k2 v2, (k2, v2) ∈ rest → ∀ kvsB old,
          hB.objs avp = some (.dict kvsB) → alookup kvsB k2 = some old →
          ValIn lo avp old := by
        intro k2 v2 hm kvsB old hObjB hlkB
        have hk2 : k2 ≠ k := by
          intro hcon
          subst hcon
          exact hnd'.1 (List.mem_map_of_mem Prod.fst hm)
        rw [hOB] at hObjB
        simp only [Option.some.injEq, PyObj.dict.injEq] at hObjB
        subst hObjB
        rw [hpres k2 hk2] at hlkB
        exact hP k2 v2 (List.mem_cons_of_mem _ hm) kvs0 old hO hlkB
      obtain ⟨fR, gR, nR, wR⟩ := ih hB heq wB hnd'.2 hPrest
      exact ⟨fun a ha => (fR a ha).trans (fB a ha),
        fun a ha => (gR a ha).trans (gB a ha), nR.trans nB, wR⟩

/-- `applyVarCore` leaves every pre-existing address and the copy's root
dict unchanged: writes go to the variable-parameters dict (fresh, below
`ar`), to nested dicts held in it, or to a fresh empty dict. -/
theorem applyVarCore_spec {n0 : Nat} (h : Heap)
    (rootkvs envkvs : List (String × PyVal)) (hfin : Heap) (ar : Nat)
    (heq : applyVarCore h rootkvs envkvs = some hfin)
    (hwf : HeapWF h) (hn0 : n0 ≤ h.next)
    (hroot : h.objs ar = some (.dict rootkvs))
    (hrv : ∀ kv ∈ rootkvs, ValIn n0 ar kv.2)
    (hvp : ∀ avp kvs2, alookup rootkvs "variable_parameters" =
        some (.ref avp) → h.objs avp = some (.dict kvs2) →
      ∀ kv ∈ kvs2, ValIn n0 avp kv.2)
    (hnd : (envkvs.map Prod.fst).Nodup) :
    (∀ a, a < n0 → hfin.objs a = h.objs a) ∧ hfin.objs ar = h.objs ar ∧
    h.next ≤ hfin.next ∧ HeapWF hfin := by
  have harlt : ar < h.next := lt_next_of_objs hwf hroot
  cases hlkvp : alookup rootkvs "variable_parameters" with
  | none =>
    simp only [applyVarCore, hlkvp] at heq
    have hwfB : HeapWF (allocObj h (.dict [])) := HeapWF_allocObj hwf _
    have hPemp : ∀ k v, (k, v) ∈ envkvs → ∀ kvs old,
        (allocObj h (.dict [])).objs h.next = some (.dict kvs) →
        alookup kvs k = some old → ValIn h.next h.next old := by
      intro k v hm kvs old hobj hlk
      rw [allocObj_objs_self] at hobj
      simp only [Option.some.injEq, PyObj.dict.injEq] at hobj
      subst hobj
      simp [alookup] at hlk
    obtain ⟨fR, gR, nR, wR⟩ :=
      applyOverridesH_spec envkvs (allocObj h (.dict [])) h.next hfin heq
        hwfB le_rfl hnd hPemp
    refine ⟨?_, ?_, ?_, wR⟩
    · intro a ha
      rw [fR a (by omega)]
      exact allocObj_objs_ne h _ (by omega)
    · rw [fR ar harlt]
      exact allocObj_objs_ne h _ (by omega)
    · rw [nR, allocObj_next]
      omega
  | some vvp =>
    cases vvp with
    | ref avp =>
      cases hovp : h.objs avp with
      | some o2 =>
        cases o2 with
        | dict kvs2 =>
          simp only [applyVarCore, hlkvp, hovp] at heq
          have hval := hrv _ (alookup_mem_pair hlkvp) avp rfl
          have hP : ∀ k v, (k, v) ∈ envkvs → ∀ kvs old,
              h.objs avp = some (.dict kvs) → alookup kvs k = some old →
              ValIn n0 avp old := by
            intro k v hm kvs old hobj hlk
            rw [hovp] at hobj
            simp only [Option.some.injEq, PyObj.dict.injEq] at hobj
            subst hobj
            exact hvp avp kvs2 hlkvp hovp _ (alookup_mem_pair hlk)
          obtain ⟨fR, gR, nR, wR⟩ :=
            applyOverridesH_spec envkvs h avp hfin heq hwf hval.1 hnd hP
          exact ⟨fR, gR ar hval.2, le_of_eq nR.symm, wR⟩
        | list xs =>
          simp only [applyVarCore, hlkvp, hovp] at heq
          split at heq
          · injection heq with heq
            subst heq
            exact ⟨fun a _ => rfl, rfl, le_rfl, hwf⟩
          · exact Option.noConfusion heq
      | none =>
        simp only [applyVarCore, hlkvp, hovp] at heq
        split at heq
        · injection heq with heq
          subst heq
          exact ⟨fun a _ => rfl, rfl, le_rfl, hwf⟩
        · exact Option.noConfusion heq
    | vnull =>
      simp only [applyVarCore, hlkvp] at heq
      split at heq
      · injection heq with heq
        subst heq
        exact ⟨fun a _ => rfl, rfl, le_rfl, hwf⟩
      · exact Option.noConfusion heq
    | vbool b0 =>
      simp only [applyVarCore, hlkvp] at heq
      split at heq
      · injection heq with heq
        subst heq
        exact ⟨fun a _ => rfl, rfl, le_rfl, hwf⟩
      · exact Option.noConfusion heq
    | vnum n1 =>
      simp only [applyVarCore, hlkvp] at heq
      split at heq
      · injection heq with heq
        subst heq
        exact ⟨fun a _ => rfl, rfl, le_rfl, hwf⟩
      · exact Option.noConfusion heq
    | vstr s0 =>
      simp only [applyVarCore, hlkvp] at heq
      split at heq
      · injection heq with heq
        subst heq
        exact ⟨fun a _ => rfl, rfl, le_rfl, hwf⟩
      · exact Option.noConfusion heq

/-- Lines 72-86 leave every pre-existing address and the copy's root
dict unchanged. -/
theorem applyVariableOverridesH_spec {n0 : Nat} (h : Heap)
    (ar aregion : Nat) (hfin : Heap)
    (heq : applyVariableOverridesH h ar aregion = some hfin)
    (hwf : HeapWF h) (hn0 : n0 ≤ h.next)
    (hrv : ∀ rootkvs, h.objs ar = some (.dict rootkvs) →
      ∀ kv ∈ rootkvs, ValIn n0 ar kv.2)
    (hvp : ∀ rootkvs avp kvs2, h.objs ar = some (.dict rootkvs) →
      alookup rootkvs "variable_parameters" = some (.ref avp) →
      h.objs avp = some (.dict kvs2) → ∀ kv ∈ kvs2, ValIn n0 avp kv.2)
    (hend : ∀ regkvs ae envkvs, h.objs aregion = some (.dict regkvs) →
      alookup regkvs "environment_overrides" = some (.ref ae) →
      h.objs ae = some (.dict envkvs) → (envkvs.map Prod.fst).Nodup) :
    (∀ a, a < n0 → hfin.objs a = h.objs a) ∧ hfin.objs ar = h.objs ar ∧
    h.next ≤ hfin.next ∧ HeapWF hfin := by
  cases hroot : h.objs ar with
  | none =>
    simp only [applyVariableOverridesH, hroot] at heq
    exact Option.noConfusion heq
  | some o =>
    cases o with
    | list xs =>
      simp only [applyVariableOverridesH, hroot] at heq
      exact Option.noConfusion heq
    | dict rootkvs =>
      rw [← hroot]
      cases hreg : h.objs aregion with
      | none =>
        simp only [applyVariableOverridesH, hroot, hreg] at heq
        exact Option.noConfusion heq
      | some o2 =>
        cases o2 with
        | list ys =>
          simp only [applyVariableOverridesH, hroot, hreg] at heq
          exact Option.noConfusion heq
        | dict regkvs =>
          simp only [applyVariableOverridesH, hroot, hreg] at heq
          cases hlke : alookup regkvs "environment_overrides" with
          | none =>
            simp only [hlke] at heq
            exact applyVarCore_spec h rootkvs [] hfin ar heq hwf hn0
              hroot (hrv rootkvs hroot)
              (fun avp kvs2 hl ho => hvp rootkvs avp kvs2 hroot hl ho)
              (by simp)
          | some ve =>
            cases ve with
            | ref ae =>
              cases henv : h.objs ae with
              | none =>
                simp only [hlke, henv] at heq
                exact Option.noConfusion heq
              | some o3 =>
                cases o3 with
                | list zs =>
                  simp only [hlke, henv] at heq
                  exact Option.noConfusion heq
                | dict envkvs =>
                  simp only [hlke, henv] at heq
                  exact applyVarCore_spec h rootkvs envkvs hfin ar heq
                    hwf hn0 hroot (hrv rootkvs hroot)
                    (fun avp kvs2 hl ho =>
                      hvp rootkvs avp kvs2 hroot hl ho)
                    (hend regkvs ae envkvs hreg hlke henv)
            | vnull =>
              simp only [hlke] at heq
              exact Option.noConfusion heq
            | vbool b0 =>
              simp only [hlke] at heq
              exact Option.noConfusion heq
            | vnum n1 =>
              simp only [hlke] at heq
              exact Option.noConfusion heq
            | vstr s0 =>
              simp only [hlke] at heq
              exact Option.noConfusion heq

/-- The copy's root maps "metadata" to a fresh reference distinct from
the root itself (true of the deep copy and preserved by every later
write of the merge). -/
def MdInv (n0 ar : Nat) (h : Heap) : Prop :=
  ∀ kvs amd, h.objs ar = some (.dict kvs) →
    alookup kvs "metadata" = some (.ref amd) → n0 ≤ amd ∧ amd ≠ ar

theorem MdInv_of_objs_eq {n0 ar : Nat} {h h2 : Heap}
    (hobjs : h2.objs ar = h.objs ar) (hmd : MdInv n0 ar h) :
    MdInv n0 ar h2 := by
  intro kvs amd ho hl
  rw [hobjs] at ho
  exact hmd kvs amd ho hl

/-- The metadata stamping writes only at the metadata dict's (fresh)
address. -/
theorem stampMetadataH_spec {n0 : Nat} (now : String) (h : Heap)
    (ar aregion : Nat) (hfin : Heap)
    (heq : stampMetadataH now h ar aregion = some hfin)
    (hwf : HeapWF h) (hmd : MdInv n0 ar h) :
    (∀ a, a < n0 → hfin.objs a = h.objs a) ∧ hfin.objs ar = h.objs ar ∧
    hfin.next = h.next ∧ HeapWF hfin ∧
    (∃ amd rootkvs, h.objs ar = some (.dict rootkvs) ∧
      alookup rootkvs "metadata" = some (.ref amd) ∧
      ∀ a, a ≠ amd → hfin.objs a = h.objs a) := by
  cases hroot : h.objs ar with
  | none =>
    simp only [stampMetadataH, hroot] at heq
    exact Option.noConfusion heq
  | some o =>
    cases o with
    | list xs =>
      simp only [stampMetadataH, hroot] at heq
      exact Option.noConfusion heq
    | dict rootkvs =>
      rw [← hroot]
      cases hreg : h.objs aregion with
      | none =>
        simp only [stampMetadataH, hroot, hreg] at heq
        exact Option.noConfusion heq
      | some o2 =>
        cases o2 with
        | list ys =>
          simp only [stampMetadataH, hroot, hreg] at heq
          exact Option.noConfusion heq
        | dict regkvs =>
          simp only [stampMetadataH, hroot, hreg] at heq
          cases hlkm : alookup rootkvs "metadata" with
          | none =>
            simp only [hlkm] at heq
            exact Option.noConfusion heq
          | some vmd =>
            cases vmd with
            | ref amd =>
              cases hmdo : h.objs amd with
              | none =>
                simp only [hlkm, hmdo] at heq
                exact Option.noConfusion heq
              | some o3 =>
                cases o3 with
                | list zs =>
                  simp only [hlkm, hmdo] at heq
                  exact Option.noConfusion heq
                | dict mdkvs =>
                  simp only [hlkm, hmdo, Option.some.injEq] at heq
                  subst heq
                  obtain ⟨hamd1, hamd2⟩ := hmd rootkvs amd hroot hlkm
                  have hamdlt : amd < h.next := lt_next_of_objs hwf hmdo
                  refine ⟨?_, ?_, setObj_next h amd _,
                    HeapWF_setObj hwf _ hamdlt,
                    amd, rootkvs, hroot, hlkm, ?_⟩
                  · intro a ha
                    exact setObj_objs_ne h amd _ (by omega)
                  · exact setObj_objs_ne h amd _ (Ne.symm hamd2)
                  · intro a ha
                    exact setObj_objs_ne h amd _ ha
            | vnull =>
              simp only [hlkm] at heq
              exact Option.noConfusion heq
            | vbool b0 =>
              simp only [hlkm] at heq
              exact Option.noConfusion heq
            | vnum n1 =>
              simp only [hlkm] at heq
              exact Option.noConfusion heq
            | vstr s0 =>
              simp only [hlkm] at heq
              exact Option.noConfusion heq

/-- `result[key] = v` for a non-"metadata" key: frame plus metadata
invariant. -/
theorem setRootKeyH_spec {n0 : Nat} (h : Heap) (ar : Nat) (key : String)
    (v : PyVal) (hfin : Heap) (heq : setRootKeyH h ar key v = some hfin)
    (hwf : HeapWF h) (har : n0 ≤ ar) (hkey : key ≠ "metadata")
    (hmd : MdInv n0 ar h) :
    (∀ a, a < n0 → hfin.objs a = h.objs a) ∧ hfin.next = h.next ∧
    HeapWF hfin ∧ MdInv n0 ar hfin := by
  cases hroot : h.objs ar with
  | none =>
    simp only [setRootKeyH, hroot] at heq
    exact Option.noConfusion heq
  | some o =>
    cases o with
    | list xs =>
      simp only [setRootKeyH, hroot] at heq
      exact Option.noConfusion heq
    | dict kvs =>
      simp only [setRootKeyH, hroot, Option.some.injEq] at heq
      subst heq
      have harlt : ar < h.next := lt_next_of_objs hwf hroot
      refine ⟨?_, setObj_next h ar _, HeapWF_setObj hwf _ harlt, ?_⟩
      · intro a ha
        exact setObj_objs_ne h ar _ (by omega)
      · intro kvs2 amd ho hl
        rw [setObj_objs_self] at ho
        simp only [Option.some.injEq, PyObj.dict.injEq] at ho
        subst ho
        rw [alookup_aset_ne kvs key v _ (Ne.symm hkey)] at hl
        exact hmd kvs amd hroot hl

/-- `result["metadata"][key] = v`: writes only at the (fresh) metadata
dict. -/
theorem addMetadataFlagH_spec {n0 : Nat} (h : Heap) (ar : Nat)
    (key : String) (v : PyVal) (hfin : Heap)
    (heq : addMetadataFlagH h ar key v = some hfin)
    (hwf : HeapWF h) (hmd : MdInv n0 ar h) :
    (∀ a, a < n0 → hfin.objs a = h.objs a) ∧ hfin.objs ar = h.objs ar ∧
    hfin.next = h.next ∧ HeapWF hfin := by
  cases hroot : h.objs ar with
  | none =>
    simp only [addMetadataFlagH, hroot] at heq
    exact Option.noConfusion heq
  | some o =>
    cases o with
    | list xs =>
      simp only [addMetadataFlagH, hroot] at heq
      exact Option.noConfusion heq
    | dict kvs =>
      rw [← hroot]
      simp only [addMetadataFlagH, hroot] at heq
      cases hlkm : alookup kvs "metadata" with
      | none =>
        simp only [hlkm] at heq
        exact Option.noConfusion heq
      | some vmd =>
        cases vmd with
        | ref amd =>
          cases hmdo : h.objs amd with
          | none =>
            simp only [hlkm, hmdo] at heq
            exact Option.noConfusion heq
          | some o3 =>
            cases o3 with
            | list zs =>
              simp only [hlkm, hmdo] at heq
              exact Option.noConfusion heq
            | dict mdkvs =>
              simp only [hlkm, hmdo, Option.some.injEq] at heq
              subst heq
              obtain ⟨hamd1, hamd2⟩ := hmd kvs amd hroot hlkm
              have hamdlt : amd < h.next := lt_next_of_objs hwf hmdo
              refine ⟨?_, ?_, setObj_next h amd _,
                HeapWF_setObj hwf _ hamdlt⟩
              · intro a ha
                exact setObj_objs_ne h amd _ (by omega)
              · exact setObj_objs_ne h amd _ (Ne.symm hamd2)
        | vnull =>
          simp only [hlkm] at heq
          exact Option.noConfusion heq
        | vbool b0 =>
          simp only [hlkm] at heq
          exact Option.noConfusion heq
        | vnum n1 =>
          simp only [hlkm] at heq
          exact Option.noConfusion heq
        | vstr s0 =>
          simp only [hlkm] at heq
          exact Option.noConfusion heq

/-- One guardrail step, given that its write respects frame, next, heap
well-formedness and the metadata invariant. -/
theorem guardStepH_spec {n0 ar : Nat} (h : Heap)
    (g : List (String × PyVal)) (key : String)
    (write : Heap → PyVal → Option Heap) (hB : Heap)
    (heq : guardStepH h g key write = some hB)
    (hwf : HeapWF h) (hmd : MdInv n0 ar h)
    (hwr : ∀ v hw, write h v = some hw →
      (∀ a, a < n0 → hw.objs a = h.objs a) ∧ hw.next = h.next ∧
      HeapWF hw ∧ MdInv n0 ar hw) :
    (∀ a, a < n0 → hB.objs a = h.objs a) ∧ hB.next = h.next ∧
    HeapWF hB ∧ MdInv n0 ar hB := by
  simp only [guardStepH] at heq
  cases hlk : alookup g key with
  | none =>
    simp only [hlk] at heq
    injection heq with heq
    subst heq
    exact ⟨fun a _ => rfl, rfl, hwf, hmd⟩
  | some v =>
    simp only [hlk] at heq
    split at heq
    · exact hwr v hB heq
    · injection heq with heq
      subst heq
      exact ⟨fun a _ => rfl, rfl, hwf, hmd⟩

/-- `_apply_brand_guardrails` writes only at the copy's root and its
metadata dict. -/
theorem applyBrandGuardrailsH_spec {n0 : Nat} (h : Heap)
    (ar acampaign : Nat) (hfin : Heap)
    (heq : applyBrandGuardrailsH h ar acampaign = some hfin)
    (hwf : HeapWF h) (har : n0 ≤ ar) (hmd : MdInv n0 ar h) :
    (∀ a, a < n0 → hfin.objs a = h.objs a) ∧ hfin.next = h.next ∧
    HeapWF hfin ∧ MdInv n0 ar hfin := by
  cases hcc : h.objs acampaign with
  | none =>
    simp only [applyBrandGuardrailsH, hcc] at heq
    exact Option.noConfusion heq
  | some o =>
    cases o with
    | list xs =>
      simp only [applyBrandGuardrailsH, hcc] at heq
      exact Option.noConfusion heq
    | dict cc =>
      simp only [applyBrandGuardrailsH, hcc] at heq
      cases hlkg : alookup cc "brand_guardrails" with
      | none =>
        simp only [hlkg] at heq
        injection heq with heq
        subst heq
        exact ⟨fun a _ => rfl, rfl, hwf, hmd⟩
      | some vg =>
        cases vg with
        | ref ag =>
          cases hgo : h.objs ag with
          | none =>
            simp only [hlkg, hgo] at heq
            exact Option.noConfusion heq
          | some o2 =>
            cases o2 with
            | list ys =>
              simp only [hlkg, hgo] at heq
              exact Option.noConfusion heq
            | dict g =>
              simp only [hlkg, hgo] at heq
              cases hs1 : guardStepH h g "negative_prompts"
                  (fun h v => setRootKeyH h ar "negative_prompts" v) with
              | none =>
                simp only [hs1] at heq
                exact Option.noConfusion heq
              | some h1 =>
                simp only [hs1] at heq
                obtain ⟨fA, nA, wA, mA⟩ := guardStepH_spec h g
                  "negative_prompts" _ h1 hs1 hwf hmd
                  (fun v hw hwq => setRootKeyH_spec h ar
                    "negative_prompts" v hw hwq hwf har (by decide) hmd)
                cases hs2 : guardStepH h1 g "forbidden_elements"
                    (fun h v =>
                      addMetadataFlagH h ar "forbidden_elements" v) with
                | none =>
                  simp only [hs2] at heq
                  exact Option.noConfusion heq
                | some h2 =>
                  simp only [hs2] at heq
                  obtain ⟨fB, nB, wB, mB⟩ := guardStepH_spec h1 g
                    "forbidden_elements" _ h2 hs2 wA mA
                    (fun v hw hwq => by
                      obtain ⟨f0, r0, n00, w0⟩ := addMetadataFlagH_spec
                        h1 ar "forbidden_elements" v hw hwq wA mA
                      exact ⟨f0, n00, w0, MdInv_of_objs_eq r0 mA⟩)
                  obtain ⟨fC, nC, wC, mC⟩ := guardStepH_spec h2 g
                    "required_elements" _ hfin heq wB mB
                    (fun v hw hwq => by
                      obtain ⟨f0, r0, n00, w0⟩ := addMetadataFlagH_spec
                        h2 ar "required_elements" v hw hwq wB mB
                      exact ⟨f0, n00, w0, MdInv_of_objs_eq r0 mB⟩)
                  exact ⟨fun a ha =>
                      ((fC a ha).trans (fB a ha)).trans (fA a ha),
                    (nC.trans nB).trans nA, wC, mC⟩
        | vnull =>
          simp only [hlkg] at heq
          exact Option.noConfusion heq
        | vbool b0 =>
          simp only [hlkg] at heq
          exact Option.noConfusion heq
        | vnum n1 =>
          simp only [hlkg] at heq
          exact Option.noConfusion heq
        | vstr s0 =>
          simp only [hlkg] at heq
          exact Option.noConfusion heq

/-- The cultural-context write only touches the metadata dict (and
possibly allocates the fresh default dict). -/
theorem setCulturalContextH_spec {n0 : Nat} (h : Heap)
    (ar aregion : Nat) (hfin : Heap)
    (heq : setCulturalContextH h ar aregion = some hfin)
    (hwf : HeapWF h) (hn0 : n0 ≤ h.next) (hmd : MdInv n0 ar h) :
    (∀ a, a < n0 → hfin.objs a = h.objs a) ∧ HeapWF hfin := by
  cases hreg : h.objs aregion with
  | none =>
    simp only [setCulturalContextH, hreg] at heq
    exact Option.noConfusion heq
  | some o =>
    cases o with
    | list xs =>
      simp only [setCulturalContextH, hreg] at heq
      exact Option.noConfusion heq
    | dict regkvs =>
      simp only [setCulturalContextH, hreg] at heq
      cases hlkc : alookup regkvs "cultural_context" with
      | some v =>
        simp only [hlkc] at heq
        obtain ⟨f0, r0, n00, w0⟩ := addMetadataFlagH_spec h ar
          "cultural_context" v hfin heq hwf hmd
        exact ⟨f0, w0⟩
      | none =>
        simp only [hlkc] at heq
        have hmdB : MdInv n0 ar (allocObj h (.dict [])) := by
          intro kvs amd ho hl
          by_cases harn : ar = h.next
          · subst harn
            rw [allocObj_objs_self] at ho
            simp only [Option.some.injEq, PyObj.dict.injEq] at ho
            subst ho
            simp [alookup] at hl
          · rw [allocObj_objs_ne h _ harn] at ho
            exact hmd kvs amd ho hl
        obtain ⟨f0, r0, n00, w0⟩ := addMetadataFlagH_spec
          (allocObj h (.dict [])) ar "cultural_context" (.ref h.next)
          hfin heq (HeapWF_allocObj hwf _) hmdB
        refine ⟨?_, w0⟩
        intro a ha
        rw [f0 a ha]
        exact allocObj_objs_ne h _ (by omega)

/-- C9: merge does not mutate its inputs — in the heap model of
`merge_configs` (localization_agent.py 36-98), for every starting heap
that is well formed (nothing allocated at or above the counter, no
dangling references, dict keys unique — all true of Python heaps) and
every master, region and optional campaign dict living in it, a
successful merge leaves every pre-existing address exactly as it was:
in particular the master_json and region_config arguments and every
container they reach are unchanged, because the result is built from a
deep copy and every write of the merge targets a freshly allocated
address. -/
theorem merge_configs_no_mutation
    (fuel : Nat) (now : String) (h0 : Heap) (amaster aregion : Nat)
    (acampaign : Option Nat) (hfin : Heap) (ar : Nat)
    (hwf : HeapWF h0)
    (hclosed : ∀ a o, h0.objs a = some o → ObjIn 0 h0.next o)
    (hnodup : ∀ a kvs, h0.objs a = some (.dict kvs) →
      (kvs.map Prod.fst).Nodup)
    (hregion : aregion < h0.next)
    (hm : merge_configs_heap fuel now h0 amaster aregion acampaign =
      some (hfin, ar)) :
    ∀ a, a < h0.next → hfin.objs a = h0.objs a := by
  cases hdc : dcVal fuel h0 (.ref amaster) with
  | none =>
    simp only [merge_configs_heap, hdc] at hm
    exact Option.noConfusion hm
  | some p =>
    obtain ⟨h1, v1⟩ := p
    cases v1 with
    | vnull =>
      simp only [merge_configs_heap, hdc] at hm
      exact Option.noConfusion hm
    | vbool b0 =>
      simp only [merge_configs_heap, hdc] at hm
      exact Option.noConfusion hm
    | vnum nn =>
      simp only [merge_configs_heap, hdc] at hm
      exact Option.noConfusion hm
    | vstr ss =>
      simp only [merge_configs_heap, hdc] at hm
      exact Option.noConfusion hm
    | ref ar0 =>
      simp only [merge_configs_heap, hdc] at hm
      obtain ⟨f1, m1, w1, vi1, n1⟩ :=
        dcVal_spec fuel h0 (.ref amaster) h1 (.ref ar0) hdc hwf
      obtain ⟨har1, har2⟩ := vi1 ar0 rfl
      cases hst : stampMetadataH now h1 ar0 aregion with
      | none =>
        simp only [hst] at hm
        exact Option.noConfusion hm
      | some h2 =>
        simp only [hst] at hm
        have hMd1 : MdInv h0.next ar0 h1 := by
          intro kvs amd ho hl
          have hobj := (n1 ar0 har1 _ ho).1
          have hval := hobj _ (alookup_mem_pair hl) amd rfl
          exact ⟨hval.1, by omega⟩
        obtain ⟨f2, r2, nx2, w2, amd, rootkvs, hro1, hlmd, fstamp⟩ :=
          stampMetadataH_spec now h1 ar0 aregion h2 hst w1 hMd1
        have hMd2 : MdInv h0.next ar0 h2 := MdInv_of_objs_eq r2 hMd1
        cases hvo : applyVariableOverridesH h2 ar0 aregion with
        | none =>
          simp only [hvo] at hm
          exact Option.noConfusion hm
        | some h3 =>
          simp only [hvo] at hm
          have hrv2 : ∀ rk, h2.objs ar0 = some (.dict rk) →
              ∀ kv ∈ rk, ValIn h0.next ar0 kv.2 := by
            intro rk hro kv hmem
            rw [r2] at hro
            exact (n1 ar0 har1 _ hro).1 kv hmem
          have hvp2 : ∀ rk avp kvs2, h2.objs ar0 = some (.dict rk) →
              alookup rk "variable_parameters" = some (.ref avp) →
              h2.objs avp = some (.dict kvs2) →
              ∀ kv ∈ kvs2, ValIn h0.next avp kv.2 := by
            intro rk avp kvs2 hro hlavp hoavp
            rw [r2] at hro
            rw [hro1] at hro
            simp only [Option.some.injEq, PyObj.dict.injEq] at hro
            subst hro
            have hpw : List.Pairwise refLt rootkvs :=
              (n1 ar0 har1 _ hro1).2 rootkvs rfl
            have hvake :=
              (n1 ar0 har1 _ hro1).1 _ (alookup_mem_pair hlavp) avp rfl
            have hnavp : avp ≠ amd :=
              alookup_pairwise_ne hpw hlavp hlmd (by decide)
            have h1avp : h1.objs avp = some (.dict kvs2) := by
              rw [← fstamp avp hnavp]
              exact hoavp
            exact (n1 avp hvake.1 _ h1avp).1
          have hend2 : ∀ regkvs ae envkvs,
              h2.objs aregion = some (.dict regkvs) →
              alookup regkvs "environment_overrides" = some (.ref ae) →
              h2.objs ae = some (.dict envkvs) →
              (envkvs.map Prod.fst).Nodup := by
            intro regkvs ae envkvs hregobj hlke henvobj
            have hreg0 : h0.objs aregion = some (.dict regkvs) := by
              rw [← f1 aregion hregion, ← f2 aregion hregion]
              exact hregobj
            have hae : ae < h0.next := by
              have hcv := hclosed aregion _ hreg0 _
                (alookup_mem_pair hlke) ae rfl
              omega
            have henv0 : h0.objs ae = some (.dict envkvs) := by
              rw [← f1 ae hae, ← f2 ae hae]
              exact henvobj
            exact hnodup ae envkvs henv0
          obtain ⟨f3, r3, m3, w3⟩ :=
            applyVariableOverridesH_spec h2 ar0 aregion h3 hvo w2
              (by omega) hrv2 hvp2 hend2
          have hMd3 : MdInv h0.next ar0 h3 := MdInv_of_objs_eq r3 hMd2
          cases hbg : (match acampaign with
            | some ac => applyBrandGuardrailsH h3 ar0 ac
            | none => some h3) with
          | none =>
            simp only [hbg] at hm
            exact Option.noConfusion hm
          | some h4 =>
            simp only [hbg] at hm
            have hstep4 : (∀ a, a < h0.next → h4.objs a = h3.objs a) ∧
                h4.next = h3.next ∧ HeapWF h4 ∧ MdInv h0.next ar0 h4 := by
              cases acampaign with
              | none =>
                have hb : some h3 = some h4 := hbg
                injection hb with hb
                subst hb
                exact ⟨fun a _ => rfl, rfl, w3, hMd3⟩
              | some ac =>
                have hb : applyBrandGuardrailsH h3 ar0 ac = some h4 := hbg
                exact applyBrandGuardrailsH_spec h3 ar0 ac h4 hb w3
                  har1 hMd3
            obtain ⟨f4, nx4, w4, hMd4⟩ := hstep4
            cases hcu : setCulturalContextH h4 ar0 aregion with
            | none =>
              simp only [hcu] at hm
              exact Option.noConfusion hm
            | some h5 =>
              simp only [hcu, Option.some.injEq, Prod.mk.injEq] at hm
              obtain ⟨rfl, rfl⟩ := hm
              obtain ⟨f5, w5⟩ := setCulturalContextH_spec h4 ar0 aregion
                h5 hcu w4 (by omega) hMd4
              intro a ha
              rw [f5 a ha, f4 a ha, f3 a ha, f2 a ha, f1 a ha]

/-- A small concrete heap: master at 0 (metadata at 1, variable
parameters at 2), region at 3 (with environment overrides at 4). -/
def exHeap0 : Heap :=
  { objs := fun a =>
      if a = 0 then
        some (.dict [("metadata", .ref 1),
          ("variable_parameters", .ref 2)])
      else if a = 1 then some (.dict [("campaign_id", .vstr "c1")])
      else if a = 2 then some (.dict [("lighting", .vstr "soft")])
      else if a = 3 then
        some (.dict [("region_id", .vstr "emea"),
          ("environment_overrides", .ref 4)])
      else if a = 4 then some (.dict [("lighting", .vstr "warm")])
      else none,
    next := 5 }

/-- The merge of the example heap (master at 0, region at 3). -/
def exMergedPair : Heap × Nat :=
  (merge_configs_heap 3 "t" exHeap0 0 3 none).getD (exHeap0, 0)

/-- Witness for C9: on the example heap the merge succeeds, and the
master and region dicts (and their sub-dicts) are bitwise unchanged. -/
theorem merge_configs_no_mutation_witness :
    merge_configs_heap 3 "t" exHeap0 0 3 none =
      some (exMergedPair.1, exMergedPair.2) ∧
    exMergedPair.1.objs 0 = exHeap0.objs 0 ∧
    exMergedPair.1.objs 2 = exHeap0.objs 2 ∧
    exMergedPair.1.objs 3 = exHeap0.objs 3 ∧
    exMergedPair.1.objs 4 = exHeap0.objs 4 := by
  have hwfx : HeapWF exHeap0 := by
    intro a ha
    have ha5 : 5 ≤ a := ha
    have e0 : ¬ (a = 0) := by omega
    have e1 : ¬ (a = 1) := by omega
    have e2 : ¬ (a = 2) := by omega
    have e3 : ¬ (a = 3) := by omega
    have e4 : ¬ (a = 4) := by omega
    simp [exHeap0, e0, e1, e2, e3, e4]
  have hclx : ∀ a o, exHeap0.objs a = some o →
      ObjIn 0 exHeap0.next o := by
    intro a o ho
    by_cases e0 : a = 0
    · subst e0
      simp [exHeap0] at ho
      subst ho
      intro kv hm
      fin_cases hm
      · intro a2 ha2
        injection ha2 with h
        subst h
        exact ⟨by decide, by decide⟩
      · intro a2 ha2
        injection ha2 with h
        subst h
        exact ⟨by decide, by decide⟩
    · by_cases e1 : a = 1
      · subst e1
        simp [exHeap0] at ho
        subst ho
        intro kv hm
        fin_cases hm
        intro a2 ha2
        exact PyVal.noConfusion ha2
      · by_cases e2 : a = 2
        · subst e2
          simp [exHeap0] at ho
          subst ho
          intro kv hm
          fin_cases hm
          intro a2 ha2
          exact PyVal.noConfusion ha2
        · by_cases e3 : a = 3
          · subst e3
            simp [exHeap0] at ho
            subst ho
            intro kv hm
            fin_cases hm
            · intro a2 ha2
              exact PyVal.noConfusion ha2
            · intro a2 ha2
              injection ha2 with h
              subst h
              exact ⟨by decide, by decide⟩
          · by_cases e4 : a = 4
            · subst e4
              simp [exHeap0] at ho
              subst ho
              intro kv hm
              fin_cases hm
              intro a2 ha2
              exact PyVal.noConfusion ha2
            · simp [exHeap0, e0, e1, e2, e3, e4] at ho
  have hndx : ∀ a kvs, exHeap0.objs a = some (.dict kvs) →
      (kvs.map Prod.fst).Nodup := by
    intro a kvs ho
    by_cases e0 : a = 0
    · subst e0
      simp [exHeap0] at ho
      subst ho
      decide
    · by_cases e1 : a = 1
      · subst e1
        simp [exHeap0] at ho
        subst ho
        decide
      · by_cases e2 : a = 2
        · subst e2
          simp [exHeap0] at ho
          subst ho
          decide
        · by_cases e3 : a = 3
          · subst e3
            simp [exHeap0] at ho
            subst ho
            decide
          · by_cases e4 : a = 4
            · subst e4
              simp [exHeap0] at ho
              subst ho
              decide
            · simp [exHeap0, e0, e1, e2, e3, e4] at ho
  have hmq : merge_configs_heap 3 "t" exHeap0 0 3 none =
      some (exMergedPair.1, exMergedPair.2) := rfl
  have hmain := merge_configs_no_mutation 3 "t" exHeap0 0 3 none
    exMergedPair.1 exMergedPair.2 hwfx hclx hndx (by decide) hmq
  exact ⟨hmq, hmain 0 (by decide), hmain 2 (by decide),
    hmain 3 (by decide), hmain 4 (by decide)⟩

end BrandFactory
